import Mathlib

/-!
Verification of the closest-pair-of-points core (`tp2_closest_pair.py`).

Shallow embedding conventions:

* `Point` has exact coordinates in an arbitrary linearly ordered
  commutative ring `α` (the Python code uses floats; the spec speaks of
  real-valued coordinates, covered by `α := ℝ` or `α := ℚ`, and every
  concrete input appearing in the spec or in the counterexamples is
  integer-valued, so the executable instances use `α := ℤ`, which the
  kernel can evaluate).
* The Python code computes Euclidean distances with `math.hypot` and only
  ever compares distances with `<`, `<=` and takes minima, plus the strip
  test `abs(p.x - midx) < d` comparing a coordinate difference against a
  distance.  Since `Real.sqrt` is strictly monotone on nonnegatives, every
  one of those comparisons holds for the distances iff it holds for the
  squared distances, and `abs(p.x - midx) < d ↔ (p.x - midx)^2 < d^2`.
  The embedding therefore carries squared distances (`dist2`) throughout:
  the value returned by the embedded algorithm is the square of the float
  the Python code returns, and the selected pairs are identical.
* `float("inf")` becomes `⊤ : WithTop α`.
* A Python `raise` / uncaught `IndexError` becomes `none`.
* Python's recursion is embedded with an explicit fuel argument (structural
  recursion); `fuel = length of the input` is enough, and a fuel-agreement
  lemma shows the result is independent of any sufficient fuel.
-/

namespace ClosestPair

open List

variable {α : Type} [LinearOrderedCommRing α]

/-- A planar point, mirroring the frozen dataclass `Point(x, y)`.
Equality is field-wise, exactly like Python's generated `__eq__`. -/
structure Point (α : Type) where
  x : α
  y : α
deriving DecidableEq, Repr

/-- Squared Euclidean distance.  The source's `dist` returns
`math.hypot(p.x - q.x, p.y - q.y)`; this is its square (see the header
comment: all comparisons the algorithm performs are invariant). -/
def dist2 (p q : Point α) : α := (p.x - q.x) ^ 2 + (p.y - q.y) ^ 2

/-- The sort key of `sorted(points, key=lambda p: (p.x, p.y))`:
lexicographic comparison on `(x, y)`. -/
def leX (p q : Point α) : Prop := p.x < q.x ∨ (p.x = q.x ∧ p.y ≤ q.y)

/-- The sort key of `sorted(points, key=lambda p: (p.y, p.x))`:
lexicographic comparison on `(y, x)`. -/
def leY (p q : Point α) : Prop := p.y < q.y ∨ (p.y = q.y ∧ p.x ≤ q.x)

instance : DecidableRel (leX (α := α)) := fun p q => by unfold leX; infer_instance

instance : DecidableRel (leY (α := α)) := fun p q => by unfold leY; infer_instance

/-- `sorted(points, key=lambda p: (p.x, p.y))` (a stable sort; since the
key determines the point, stability does not affect the result). -/
def sortX (pts : List (Point α)) : List (Point α) := pts.insertionSort leX

/-- `sorted(points, key=lambda p: (p.y, p.x))`. -/
def sortY (pts : List (Point α)) : List (Point α) := pts.insertionSort leY

/-- The pairs `(points[i], points[j])` for `0 ≤ i < j < n` in exactly the
order the double loop of `brute_force` visits them. -/
def allPairsL : List (Point α) → List (Point α × Point α)
  | [] => []
  | p :: ps => (ps.map fun q => (p, q)) ++ allPairsL ps

/-- One iteration of the shared update pattern
`if d < best: best = d; pair = (p, q)` (strict `<`, first-win on ties). -/
def upd (acc : WithTop α × (Point α × Point α)) (pq : Point α × Point α) :
    WithTop α × (Point α × Point α) :=
  if ((dist2 pq.1 pq.2 : α) : WithTop α) < acc.1 then (((dist2 pq.1 pq.2 : α) : WithTop α), pq) else acc

/-- `brute_force`: starts from `best = inf`, `pair = (points[0], points[0])`
(`none` models the `IndexError` on an empty list) and folds the strict
improvement step over all index pairs `i < j` in loop order. -/
def brute_force (points : List (Point α)) : Option (WithTop α × (Point α × Point α)) :=
  match points with
  | [] => none
  | p0 :: _ => some ((allPairsL points).foldl upd (⊤, (p0, p0)))

/-- The pairs `(strip[i], strip[j])` for `i < j < min(i + 8, m)`, in exactly
the order the strip scan loops visit them: each point against at most its
next 7 successors. -/
def stripPairs : List (Point α) → List (Point α × Point α)
  | [] => []
  | p :: ps => ((ps.take 7).map fun q => (p, q)) ++ stripPairs ps

/-- `_closest_pair_rec(px, py)`.  `fuel` makes the recursion structural;
`none` models a crash (never reached with sufficient fuel, see
`closestPairRec_fuel_agree`).  Every construct mirrors the source:
midpoint-index split, `midx = Qx[-1].x` (via `getLast?`, `none` modelling
the `IndexError` on empty), the value-membership partition
`[p for p in py if p in set(Qx)]`, the `dl <= dr` selection, the strip
filter `abs(p.x - midx) < d` (squared form), and the 7-successor scan. -/
def closestPairRec : Nat → List (Point α) → List (Point α) → Option (WithTop α × (Point α × Point α))
  | 0, _, _ => none
  | fuel + 1, px, py =>
    if px.length ≤ 3 then brute_force px
    else
      let mid := px.length / 2
      let Qx := px.take mid
      let Rx := px.drop mid
      match Qx.getLast? with
      | none => none
      | some qlast =>
        let midx := qlast.x
        let Qy := py.filter fun p => decide (p ∈ Qx)
        let Ry := py.filter fun p => decide (p ∉ Qx)
        match closestPairRec fuel Qx Qy, closestPairRec fuel Rx Ry with
        | some (dl, pl), some (dr, pr) =>
          let best := if dl ≤ dr then (dl, pl) else (dr, pr)
          let strip := py.filter fun p => decide ((((p.x - midx) ^ 2 : α) : WithTop α) < best.1)
          some ((stripPairs strip).foldl upd best)
        | _, _ => none

/-- `closest_pair(points)`: `none` models the `ValueError` raised when
fewer than two points are supplied; otherwise presort by x and by y and
run the recursion (with fuel `points.length`, which is sufficient). -/
def closest_pair (points : List (Point α)) : Option (WithTop α × (Point α × Point α)) :=
  if points.length < 2 then none
  else closestPairRec points.length (sortX points) (sortY points)

/-- The brute-force oracle as a mathematical value: the minimum of
`dist2` over all pairs of distinct positions of `l` (`⊤` if none). -/
def minDist2 (l : List (Point α)) : WithTop α :=
  ((allPairsL l).map fun pq => ((dist2 pq.1 pq.2 : α) : WithTop α)).foldr min ⊤

/-- The actual (non-squared) Euclidean distance, for stating the concrete
`√2` example. -/
noncomputable def distReal (p q : Point ℤ) : ℝ := Real.sqrt ((dist2 p q : ℤ) : ℝ)

/-- The cell of a point inside a `√δ × √δ` box: which of the two columns
(squared x-offset from `midx` at most `δ/4` or not) and which of the two
rows (below or above the y-midline) it lies in.  Used by the packing
argument behind the 7-successor bound. -/
def boxCell (midx ya yb δ : α) (e : Point α) : Bool × Bool :=
  (decide (4 * (e.x - midx) ^ 2 ≤ δ), decide (2 * e.y ≤ ya + yb))

/-- The first example set of `example_sets()` (lines 111–114), the one the
spec's §8 "Concrete example" refers to. -/
def examplePts : List (Point ℤ) :=
  [⟨0, 0⟩, ⟨2, 3⟩, ⟨3, 4⟩, ⟨5, 1⟩, ⟨1, 1⟩, ⟨4, 4⟩, ⟨7, 2⟩, ⟨6, 6⟩, ⟨8, 5⟩, ⟨9, 1⟩]

/-- A 4-point input whose duplicated coordinate pair straddles the
midpoint split: used to exhibit the value-membership partition. -/
def dupSplitPts : List (Point ℤ) := [⟨0, 0⟩, ⟨1, 0⟩, ⟨1, 0⟩, ⟨2, 0⟩]

/-- An 8-point input whose left recursive subproblem receives a `Qy`
containing a duplicate that its own point subset `Qx` holds only once. -/
def phantomPts : List (Point ℤ) :=
  [⟨0, 0⟩, ⟨3, 0⟩, ⟨4, 0⟩, ⟨4, 10⟩, ⟨4, 10⟩, ⟨20, 0⟩, ⟨30, 0⟩, ⟨40, 0⟩]

/-! ### Basic facts about the sort orders -/

theorem Point.ext_xy : ∀ {p q : Point α}, p.x = q.x → p.y = q.y → p = q
  | ⟨_, _⟩, ⟨_, _⟩, rfl, rfl => rfl

theorem leX_refl (p : Point α) : leX p p := Or.inr ⟨rfl, le_refl _⟩

theorem leY_refl (p : Point α) : leY p p := Or.inr ⟨rfl, le_refl _⟩

instance : IsRefl (Point α) leX := ⟨leX_refl⟩

instance : IsRefl (Point α) leY := ⟨leY_refl⟩

theorem leX_total (p q : Point α) : leX p q ∨ leX q p := by
  unfold leX
  rcases lt_trichotomy p.x q.x with h | h | h
  · exact Or.inl (Or.inl h)
  · rcases le_total p.y q.y with h' | h'
    · exact Or.inl (Or.inr ⟨h, h'⟩)
    · exact Or.inr (Or.inr ⟨h.symm, h'⟩)
  · exact Or.inr (Or.inl h)

theorem leY_total (p q : Point α) : leY p q ∨ leY q p := by
  unfold leY
  rcases lt_trichotomy p.y q.y with h | h | h
  · exact Or.inl (Or.inl h)
  · rcases le_total p.x q.x with h' | h'
    · exact Or.inl (Or.inr ⟨h, h'⟩)
    · exact Or.inr (Or.inr ⟨h.symm, h'⟩)
  · exact Or.inr (Or.inl h)

instance : IsTotal (Point α) leX := ⟨leX_total⟩

instance : IsTotal (Point α) leY := ⟨leY_total⟩

theorem leX_trans {p q r : Point α} (h₁ : leX p q) (h₂ : leX q r) : leX p r := by
  rcases h₁ with h₁ | ⟨h₁, h₁'⟩ <;> rcases h₂ with h₂ | ⟨h₂, h₂'⟩
  · exact Or.inl (h₁.trans h₂)
  · exact Or.inl (h₂ ▸ h₁)
  · exact Or.inl (h₁ ▸ h₂)
  · exact Or.inr ⟨h₁.trans h₂, h₁'.trans h₂'⟩

theorem leY_trans {p q r : Point α} (h₁ : leY p q) (h₂ : leY q r) : leY p r := by
  rcases h₁ with h₁ | ⟨h₁, h₁'⟩ <;> rcases h₂ with h₂ | ⟨h₂, h₂'⟩
  · exact Or.inl (h₁.trans h₂)
  · exact Or.inl (h₂ ▸ h₁)
  · exact Or.inl (h₁ ▸ h₂)
  · exact Or.inr ⟨h₁.trans h₂, h₁'.trans h₂'⟩

instance : IsTrans (Point α) leX := ⟨fun _ _ _ => leX_trans⟩

instance : IsTrans (Point α) leY := ⟨fun _ _ _ => leY_trans⟩

theorem leX_antisymm {p q : Point α} (h₁ : leX p q) (h₂ : leX q p) : p = q := by
  rcases h₁ with h₁ | ⟨h₁, h₁'⟩ <;> rcases h₂ with h₂ | ⟨h₂, h₂'⟩
  · exact absurd (h₁.trans h₂) (lt_irrefl _)
  · exact absurd (h₂ ▸ h₁) (lt_irrefl _)
  · exact absurd (h₁ ▸ h₂) (lt_irrefl _)
  · exact Point.ext_xy h₁ (le_antisymm h₁' h₂')

theorem leY_antisymm {p q : Point α} (h₁ : leY p q) (h₂ : leY q p) : p = q := by
  rcases h₁ with h₁ | ⟨h₁, h₁'⟩ <;> rcases h₂ with h₂ | ⟨h₂, h₂'⟩
  · exact absurd (h₁.trans h₂) (lt_irrefl _)
  · exact absurd (h₂ ▸ h₁) (lt_irrefl _)
  · exact absurd (h₁ ▸ h₂) (lt_irrefl _)
  · exact Point.ext_xy (le_antisymm h₁' h₂') h₁

theorem leX_x_le {p q : Point α} (h : leX p q) : p.x ≤ q.x := by
  rcases h with h | ⟨h, _⟩
  · exact le_of_lt h
  · exact le_of_eq h

theorem leY_y_le {p q : Point α} (h : leY p q) : p.y ≤ q.y := by
  rcases h with h | ⟨h, _⟩
  · exact le_of_lt h
  · exact le_of_eq h

theorem sortX_perm (pts : List (Point α)) : sortX pts ~ pts := List.perm_insertionSort leX pts

theorem sortY_perm (pts : List (Point α)) : sortY pts ~ pts := List.perm_insertionSort leY pts

theorem sortX_sorted (pts : List (Point α)) : List.Sorted leX (sortX pts) :=
  List.sorted_insertionSort leX pts

theorem sortY_sorted (pts : List (Point α)) : List.Sorted leY (sortY pts) :=
  List.sorted_insertionSort leY pts

theorem sortX_length (pts : List (Point α)) : (sortX pts).length = pts.length :=
  (sortX_perm pts).length_eq

/-! ### Basic facts about the squared distance -/

theorem dist2_comm (p q : Point α) : dist2 p q = dist2 q p := by
  unfold dist2; ring

theorem dist2_nonneg (p q : Point α) : 0 ≤ dist2 p q := by
  unfold dist2; positivity

theorem dist2_self (p : Point α) : dist2 p p = 0 := by
  unfold dist2; ring

theorem dx_sq_le_dist2 (p q : Point α) : (p.x - q.x) ^ 2 ≤ dist2 p q := by
  unfold dist2; nlinarith [sq_nonneg (p.y - q.y)]

theorem dy_sq_le_dist2 (p q : Point α) : (p.y - q.y) ^ 2 ≤ dist2 p q := by
  unfold dist2; nlinarith [sq_nonneg (p.x - q.x)]

/-! ### Pairs of distinct positions, `allPairsL`, and subpermutations -/

theorem perm_pair_eq {p q : Point α} {l : List (Point α)} (h : List.Perm l [p, q]) :
    l = [p, q] ∨ l = [q, p] := by
  match l, h.length_eq with
  | [a, b], _ =>
    have ha : a ∈ [p, q] := h.subset (List.mem_cons_self a [b])
    rcases List.mem_pair.mp ha with rfl | rfl
    · left
      have : [b] = [q] := List.perm_singleton.mp (h.cons_inv)
      simp_all
    · right
      have h' : List.Perm (a :: [b]) (a :: [p]) := h.trans (List.Perm.swap a p [])
      have : [b] = [p] := List.perm_singleton.mp h'.cons_inv
      simp_all

theorem sublist_of_mem_allPairsL :
    ∀ {l : List (Point α)} {pq : Point α × Point α}, pq ∈ allPairsL l → [pq.1, pq.2] <+ l := by
  intro l
  induction l with
  | nil => intro pq h; simp [allPairsL] at h
  | cons p ps ih =>
    intro pq h
    rcases List.mem_append.mp h with h | h
    · rcases List.mem_map.mp h with ⟨q, hq, rfl⟩
      exact (List.singleton_sublist.mpr hq).cons₂ p
    · exact (ih h).cons p

theorem pair_sublist_mem_allPairsL :
    ∀ {l : List (Point α)} {p q : Point α}, [p, q] <+ l → (p, q) ∈ allPairsL l := by
  intro l
  induction l with
  | nil => intro p q h; cases h
  | cons x t ih =>
    intro p q h
    cases h with
    | cons _ h => exact List.mem_append_right _ (ih h)
    | cons₂ _ h =>
      exact List.mem_append_left _ (List.mem_map.mpr ⟨q, List.singleton_sublist.mp h, rfl⟩)

theorem subperm_pair_cases {l : List (Point α)} {p q : Point α} (h : [p, q] <+~ l) :
    (p, q) ∈ allPairsL l ∨ (q, p) ∈ allPairsL l := by
  rcases h with ⟨l', hperm, hsub⟩
  rcases perm_pair_eq hperm with rfl | rfl
  · exact Or.inl (pair_sublist_mem_allPairsL hsub)
  · exact Or.inr (pair_sublist_mem_allPairsL hsub)

theorem allPairsL_get :
    ∀ {l : List (Point α)} {pq : Point α × Point α}, pq ∈ allPairsL l →
      ∃ i j : Fin l.length, i < j ∧ l.get i = pq.1 ∧ l.get j = pq.2 := by
  intro l
  induction l with
  | nil => intro pq h; simp [allPairsL] at h
  | cons x t ih =>
    intro pq h
    rcases List.mem_append.mp h with h | h
    · rcases List.mem_map.mp h with ⟨q, hq, rfl⟩
      rcases List.mem_iff_get.mp hq with ⟨j, rfl⟩
      exact ⟨⟨0, Nat.succ_pos _⟩, j.succ, Nat.succ_pos _, rfl, rfl⟩
    · rcases ih h with ⟨i, j, hij, hi, hj⟩
      exact ⟨i.succ, j.succ, Nat.succ_lt_succ hij, hi, hj⟩

theorem get_pair_sublist :
    ∀ {l : List (Point α)} {i j : Fin l.length}, i < j → [l.get i, l.get j] <+ l := by
  intro l
  induction l with
  | nil => intro i; exact absurd i.2 (Nat.not_lt_zero _)
  | cons x t ih =>
    intro i j hij
    match i, j with
    | ⟨0, _⟩, ⟨j' + 1, hj⟩ =>
      have : t.get ⟨j', Nat.lt_of_succ_lt_succ hj⟩ ∈ t := List.get_mem t j' _
      exact (List.singleton_sublist.mpr this).cons₂ x
    | ⟨i' + 1, hi⟩, ⟨j' + 1, hj⟩ =>
      exact (ih (i := ⟨i', Nat.lt_of_succ_lt_succ hi⟩) (j := ⟨j', Nat.lt_of_succ_lt_succ hj⟩)
        (Nat.lt_of_succ_lt_succ hij)).cons x

theorem get_pair_subperm {l : List (Point α)} {i j : Fin l.length} (h : i ≠ j) :
    [l.get i, l.get j] <+~ l := by
  rcases lt_or_gt_of_ne h with hlt | hgt
  · exact (get_pair_sublist hlt).subperm
  · exact ⟨[l.get j, l.get i], List.Perm.swap _ _ _, get_pair_sublist hgt⟩

/-! ### The strict-improvement fold -/

theorem upd_fst_le (acc : WithTop α × (Point α × Point α)) (pq : Point α × Point α) :
    (upd acc pq).1 ≤ acc.1 := by
  unfold upd
  split
  · exact le_of_lt (by assumption)
  · exact le_refl _

theorem foldl_upd_fst_le_init :
    ∀ (l : List (Point α × Point α)) (acc), ((l.foldl upd acc).1) ≤ acc.1 := by
  intro l
  induction l with
  | nil => intro acc; exact le_refl _
  | cons x t ih => intro acc; exact (ih (upd acc x)).trans (upd_fst_le acc x)

theorem upd_fst_le_dist (acc : WithTop α × (Point α × Point α)) (pq : Point α × Point α) :
    (upd acc pq).1 ≤ ((dist2 pq.1 pq.2 : α) : WithTop α) := by
  unfold upd
  split
  · exact le_refl _
  · exact le_of_not_lt (by assumption)

theorem foldl_upd_fst_le_mem :
    ∀ {l : List (Point α × Point α)} (pq : Point α × Point α) (acc), pq ∈ l →
      ((l.foldl upd acc).1) ≤ ((dist2 pq.1 pq.2 : α) : WithTop α) := by
  intro l
  induction l with
  | nil => intro pq acc h; simp at h
  | cons x t ih =>
    intro pq acc h
    rcases List.mem_cons.mp h with rfl | h
    · exact (foldl_upd_fst_le_init t (upd acc pq)).trans (upd_fst_le_dist acc pq)
    · exact ih pq (upd acc x) h

theorem foldl_upd_sound :
    ∀ {l : List (Point α × Point α)} (acc) {r}, l.foldl upd acc = r →
      r = acc ∨ ∃ pq ∈ l, r = (((dist2 pq.1 pq.2 : α) : WithTop α), pq) := by
  intro l
  induction l with
  | nil => intro acc r h; exact Or.inl h.symm
  | cons x t ih =>
    intro acc r h
    rcases ih (upd acc x) h with h' | ⟨pq, hpq, rfl⟩
    · have : upd acc x = acc ∨ upd acc x = (((dist2 x.1 x.2 : α) : WithTop α), x) := by
        unfold upd; split
        · exact Or.inr rfl
        · exact Or.inl rfl
      rcases this with h'' | h''
      · exact Or.inl (h'.trans h'')
      · exact Or.inr ⟨x, List.mem_cons_self _ _, h'.trans h''⟩
    · exact Or.inr ⟨pq, List.mem_cons_of_mem _ hpq, rfl⟩

/-! ### The brute-force oracle `minDist2` -/

theorem foldr_min_le {a : WithTop α} :
    ∀ {xs : List (WithTop α)}, a ∈ xs → xs.foldr min ⊤ ≤ a := by
  intro xs
  induction xs with
  | nil => intro h; simp at h
  | cons x t ih =>
    intro h
    rcases List.mem_cons.mp h with rfl | h
    · exact min_le_left _ _
    · exact le_trans (min_le_right _ _) (ih h)

theorem le_foldr_min {c : WithTop α} :
    ∀ {xs : List (WithTop α)}, (∀ a ∈ xs, c ≤ a) → c ≤ xs.foldr min ⊤ := by
  intro xs
  induction xs with
  | nil => intro _; exact le_top
  | cons x t ih =>
    intro h
    exact le_min (h x (List.mem_cons_self _ _)) (ih fun a ha => h a (List.mem_cons_of_mem _ ha))

theorem minDist2_le_of_mem {l : List (Point α)} {pq : Point α × Point α} (h : pq ∈ allPairsL l) :
    minDist2 l ≤ ((dist2 pq.1 pq.2 : α) : WithTop α) :=
  foldr_min_le (List.mem_map.mpr ⟨pq, h, rfl⟩)

theorem minDist2_le_of_subperm {l : List (Point α)} {p q : Point α} (h : [p, q] <+~ l) :
    minDist2 l ≤ ((dist2 p q : α) : WithTop α) := by
  rcases subperm_pair_cases h with h' | h'
  · exact minDist2_le_of_mem h'
  · calc minDist2 l ≤ ((dist2 q p : α) : WithTop α) := minDist2_le_of_mem h'
      _ = ((dist2 p q : α) : WithTop α) := by rw [dist2_comm]

theorem le_minDist2 {l : List (Point α)} {c : WithTop α}
    (h : ∀ p q : Point α, [p, q] <+~ l → c ≤ ((dist2 p q : α) : WithTop α)) : c ≤ minDist2 l := by
  apply le_foldr_min
  intro a ha
  rcases List.mem_map.mp ha with ⟨pq, hpq, rfl⟩
  exact h pq.1 pq.2 (sublist_of_mem_allPairsL hpq).subperm

theorem minDist2_perm {l l' : List (Point α)} (h : List.Perm l l') : minDist2 l = minDist2 l' :=
  LE.le.antisymm
    (le_minDist2 fun _ _ hpq => minDist2_le_of_subperm (hpq.trans h.symm.subperm))
    (le_minDist2 fun _ _ hpq => minDist2_le_of_subperm (hpq.trans h.subperm))

/-! ### The strip scan pair enumeration -/

theorem sublist_of_mem_stripPairs :
    ∀ {l : List (Point α)} {pq : Point α × Point α}, pq ∈ stripPairs l → [pq.1, pq.2] <+ l := by
  intro l
  induction l with
  | nil => intro pq h; simp [stripPairs] at h
  | cons p ps ih =>
    intro pq h
    rcases List.mem_append.mp h with h | h
    · rcases List.mem_map.mp h with ⟨q, hq, rfl⟩
      exact (List.singleton_sublist.mpr (List.take_subset 7 ps hq)).cons₂ p
    · exact (ih h).cons p

theorem stripPairs_get :
    ∀ {l : List (Point α)} {pq : Point α × Point α}, pq ∈ stripPairs l →
      ∃ i j : Fin l.length, i < j ∧ (j : ℕ) ≤ (i : ℕ) + 7 ∧ l.get i = pq.1 ∧ l.get j = pq.2 := by
  intro l
  induction l with
  | nil => intro pq h; simp [stripPairs] at h
  | cons x t ih =>
    intro pq h
    rcases List.mem_append.mp h with h | h
    · rcases List.mem_map.mp h with ⟨q, hq, rfl⟩
      rcases List.mem_iff_get.mp hq with ⟨j, rfl⟩
      have hj7 : (j : ℕ) < 7 := lt_of_lt_of_le j.2 (by
        rw [List.length_take]; exact min_le_left _ _)
      have hjt : (j : ℕ) < t.length := lt_of_lt_of_le j.2 (by
        rw [List.length_take]; exact min_le_right _ _)
      refine ⟨⟨0, Nat.succ_pos _⟩, ⟨(j : ℕ) + 1, Nat.succ_lt_succ hjt⟩, Nat.succ_pos _,
        by simp only [Fin.val_mk]; omega, rfl, ?_⟩
      show t.get ⟨(j : ℕ), hjt⟩ = _
      rw [List.get_eq_getElem, List.get_eq_getElem, List.getElem_take]
    · rcases ih h with ⟨i, j, hij, h7, hi, hj⟩
      exact ⟨i.succ, j.succ, Nat.succ_lt_succ hij, by simp only [Fin.val_succ]; omega, hi, hj⟩

theorem mem_stripPairs_of_get :
    ∀ {l : List (Point α)} {i j : Fin l.length}, i < j → (j : ℕ) ≤ (i : ℕ) + 7 →
      (l.get i, l.get j) ∈ stripPairs l := by
  intro l
  induction l with
  | nil => intro i; exact absurd i.2 (Nat.not_lt_zero _)
  | cons x t ih =>
    intro i j hij h7
    match i, j with
    | ⟨0, _⟩, ⟨j' + 1, hj⟩ =>
      apply List.mem_append_left
      apply List.mem_map.mpr
      have hjt : j' < t.length := Nat.lt_of_succ_lt_succ hj
      have hj7 : j' < 7 := by simp only [Fin.val_mk] at h7; omega
      have hmem : t.get ⟨j', hjt⟩ ∈ t.take 7 := by
        apply List.mem_iff_get.mpr
        refine ⟨⟨j', by rw [List.length_take]; exact lt_min hj7 hjt⟩, ?_⟩
        rw [List.get_eq_getElem, List.get_eq_getElem, List.getElem_take]
      exact ⟨t.get ⟨j', hjt⟩, hmem, rfl⟩
    | ⟨i' + 1, hi⟩, ⟨j' + 1, hj⟩ =>
      apply List.mem_append_right
      exact ih (i := ⟨i', Nat.lt_of_succ_lt_succ hi⟩) (j := ⟨j', Nat.lt_of_succ_lt_succ hj⟩)
        (Nat.lt_of_succ_lt_succ hij) (by simp only [Fin.val_mk] at h7 ⊢; omega)

/-! ### Characterization of `brute_force` -/

theorem brute_force_spec {pts : List (Point α)} (h2 : 2 ≤ pts.length) :
    ∃ (d : α) (bp : Point α × Point α),
      brute_force pts = some ((d : WithTop α), bp) ∧
      d = dist2 bp.1 bp.2 ∧ [bp.1, bp.2] <+~ pts ∧
      (∀ p q : Point α, [p, q] <+~ pts → d ≤ dist2 p q) ∧
      (d : WithTop α) = minDist2 pts := by
  match pts, h2 with
  | p0 :: p1 :: rest, _ =>
    set pts := p0 :: p1 :: rest with hpts
    have hres : brute_force pts = some ((allPairsL pts).foldl upd (⊤, (p0, p0))) := rfl
    set r := (allPairsL pts).foldl upd (⊤, (p0, p0)) with hr
    have hcompl : ∀ p q : Point α, [p, q] <+~ pts → r.1 ≤ ((dist2 p q : α) : WithTop α) := by
      intro p q hpq
      rcases subperm_pair_cases hpq with h' | h'
      · exact foldl_upd_fst_le_mem _ _ h'
      · calc r.1 ≤ ((dist2 q p : α) : WithTop α) := foldl_upd_fst_le_mem _ _ h'
          _ = ((dist2 p q : α) : WithTop α) := by rw [dist2_comm]
    have h01 : (p0, p1) ∈ allPairsL pts := by
      apply List.mem_append_left
      exact List.mem_map.mpr ⟨p1, List.mem_cons_self _ _, rfl⟩
    have hne : r.1 ≠ ⊤ := by
      intro htop
      have := foldl_upd_fst_le_mem (p0, p1) (⊤, (p0, p0)) h01
      rw [← hr, htop] at this
      exact absurd (lt_of_le_of_lt this (WithTop.coe_lt_top _)) (lt_irrefl _)
    rcases foldl_upd_sound (l := allPairsL pts) (⊤, (p0, p0)) (r := r) rfl with
      hcase | ⟨pq, hpq, hcase⟩
    · exact absurd (by rw [hcase]) hne
    · refine ⟨dist2 pq.1 pq.2, pq, by rw [hres, hcase], rfl,
        (sublist_of_mem_allPairsL hpq).subperm, ?_, ?_⟩
      · intro p q h
        have := hcompl p q h
        rw [hcase] at this
        exact WithTop.coe_le_coe.mp this
      · refine LE.le.antisymm ?_ (minDist2_le_of_mem hpq)
        apply le_minDist2
        intro p q h
        have := hcompl p q h
        rwa [hcase] at this

/-! ### Unfolding the recursion -/

theorem closestPairRec_base {fuel : Nat} {px py : List (Point α)} (h : px.length ≤ 3) :
    closestPairRec (fuel + 1) px py = brute_force px := by
  rw [closestPairRec, if_pos h]

theorem closestPairRec_node {fuel : Nat} {px py : List (Point α)} {qlast : Point α}
    {dl dr : WithTop α} {pl pr : Point α × Point α}
    (h3 : ¬ px.length ≤ 3)
    (hlast : (px.take (px.length / 2)).getLast? = some qlast)
    (hl : closestPairRec fuel (px.take (px.length / 2))
        ((py.filter fun p => decide (p ∈ px.take (px.length / 2)))) = some (dl, pl))
    (hr : closestPairRec fuel (px.drop (px.length / 2))
        ((py.filter fun p => decide (p ∉ px.take (px.length / 2)))) = some (dr, pr)) :
    closestPairRec (fuel + 1) px py =
      some ((stripPairs (py.filter fun p =>
          decide ((((p.x - qlast.x) ^ 2 : α) : WithTop α) <
            (if dl ≤ dr then (dl, pl) else (dr, pr)).1))).foldl
        upd (if dl ≤ dr then (dl, pl) else (dr, pr))) := by
  rw [closestPairRec, if_neg h3]
  simp only [hlast, hl, hr]

theorem closestPairRec_zero_left {g : Nat} {px py : List (Point α)} (h : px.length = 0) :
    closestPairRec g px py = none := by
  have : px = [] := List.length_eq_zero.mp h
  subst this
  cases g with
  | zero => rfl
  | succ g' => rw [closestPairRec_base (by simp)]; rfl

/-- The recursion consumes one unit of fuel per level and both halves are
strictly shorter, so any fuel at least the current length yields the same
result: the algorithm terminates, and `closest_pair`'s choice
`fuel = points.length` is sufficient. -/
theorem closestPairRec_fuel_agree :
    ∀ (f g : Nat) (px py : List (Point α)), px.length ≤ f → px.length ≤ g →
      closestPairRec f px py = closestPairRec g px py := by
  intro f
  induction f with
  | zero =>
    intro g px py hf _
    have h0 : px.length = 0 := Nat.le_zero.mp hf
    rw [closestPairRec_zero_left h0, closestPairRec_zero_left h0]
  | succ f' ih =>
    intro g px py hf hg
    cases g with
    | zero =>
      have h0 : px.length = 0 := Nat.le_zero.mp hg
      rw [closestPairRec_zero_left h0, closestPairRec_zero_left h0]
    | succ g' =>
      by_cases h3 : px.length ≤ 3
      · rw [closestPairRec_base h3, closestPairRec_base h3]
      · have hlen4 : 4 ≤ px.length := by omega
        have hQlen : (px.take (px.length / 2)).length = px.length / 2 := by
          rw [List.length_take]; omega
        have hRlen : (px.drop (px.length / 2)).length = px.length - px.length / 2 :=
          List.length_drop _ _
        have ihQ : ∀ py', closestPairRec f' (px.take (px.length / 2)) py' =
            closestPairRec g' (px.take (px.length / 2)) py' := by
          intro py'
          exact ih g' _ py' (by omega) (by omega)
        have ihR : ∀ py', closestPairRec f' (px.drop (px.length / 2)) py' =
            closestPairRec g' (px.drop (px.length / 2)) py' := by
          intro py'
          exact ih g' _ py' (by omega) (by omega)
        rw [closestPairRec, closestPairRec, if_neg h3, if_neg h3]
        simp only [ihQ, ihR]

/-- Existence and soundness of the recursion, with no coherence assumptions
on `px`/`py`: on any input with at least two x-points and enough fuel it
returns a finite value that is the squared distance of its returned pair,
and that pair is a pair of two distinct positions of `px` or of `py`. -/
theorem closestPairRec_some :
    ∀ (fuel : Nat) (px py : List (Point α)), px.length ≤ fuel → 2 ≤ px.length →
      ∃ (d : α) (bp : Point α × Point α),
        closestPairRec fuel px py = some ((d : WithTop α), bp) ∧
        d = dist2 bp.1 bp.2 ∧ ([bp.1, bp.2] <+~ px ∨ [bp.1, bp.2] <+~ py) := by
  intro fuel
  induction fuel with
  | zero => intro px py hf h2; omega
  | succ fuel ih =>
    intro px py hf h2
    by_cases h3 : px.length ≤ 3
    · rcases brute_force_spec h2 with ⟨d, bp, hbf, hd, hsub, _, _⟩
      exact ⟨d, bp, by rw [closestPairRec_base h3, hbf], hd, Or.inl hsub⟩
    · have hlen4 : 4 ≤ px.length := by omega
      set mid := px.length / 2 with hmid
      set Qx := px.take mid with hQx
      set Rx := px.drop mid with hRx
      have hQlen : Qx.length = mid := by rw [hQx, List.length_take]; omega
      have hRlen : Rx.length = px.length - mid := List.length_drop _ _
      have hQ2 : 2 ≤ Qx.length := by omega
      have hR2 : 2 ≤ Rx.length := by omega
      have hQne : Qx ≠ [] := by
        intro h
        rw [h] at hQlen
        simp at hQlen
        omega
      obtain ⟨qlast, hlast⟩ : ∃ qlast, Qx.getLast? = some qlast :=
        ⟨Qx.getLast hQne, List.getLast?_eq_getLast Qx hQne⟩
      obtain ⟨dlq, pl, hl, hdl, hsubl⟩ :=
        ih Qx (py.filter fun p => decide (p ∈ Qx)) (by omega) hQ2
      obtain ⟨drq, pr, hr, hdr, hsubr⟩ :=
        ih Rx (py.filter fun p => decide (p ∉ Qx)) (by omega) hR2
      have hnode := closestPairRec_node h3 hlast hl hr
      set best : WithTop α × (Point α × Point α) :=
        if ((dlq : WithTop α)) ≤ ((drq : WithTop α)) then ((dlq : WithTop α), pl)
          else ((drq : WithTop α), pr) with hbest
      set strip := py.filter fun p =>
        decide ((((p.x - qlast.x) ^ 2 : α) : WithTop α) < best.1) with hstrip
      have hstrip_py : strip <+ py := List.filter_sublist _
      have hres : closestPairRec (fuel + 1) px py = some ((stripPairs strip).foldl upd best) :=
        hnode
      have hbest_cases :
          ∃ (b : α) (bbp : Point α × Point α), best = ((b : WithTop α), bbp) ∧
            b = dist2 bbp.1 bbp.2 ∧ ([bbp.1, bbp.2] <+~ px ∨ [bbp.1, bbp.2] <+~ py) := by
        rw [hbest]
        split
        · refine ⟨dlq, pl, rfl, hdl, ?_⟩
          rcases hsubl with h | h
          · exact Or.inl (h.trans (List.take_sublist _ _).subperm)
          · exact Or.inr (h.trans (List.filter_sublist _).subperm)
        · refine ⟨drq, pr, rfl, hdr, ?_⟩
          rcases hsubr with h | h
          · exact Or.inl (h.trans (List.drop_sublist _ _).subperm)
          · exact Or.inr (h.trans (List.filter_sublist _).subperm)
      obtain ⟨b, bbp, hbeq, hbd, hbsub⟩ := hbest_cases
      rcases foldl_upd_sound (l := stripPairs strip) best
          (r := (stripPairs strip).foldl upd best) rfl with hcase | ⟨pq, hpq, hcase⟩
      · exact ⟨b, bbp, by rw [hres, hcase, hbeq], hbd, hbsub⟩
      · refine ⟨dist2 pq.1 pq.2, pq, by rw [hres, hcase], rfl, Or.inr ?_⟩
        exact ((sublist_of_mem_stripPairs hpq).trans hstrip_py).subperm

/-! ### The packing argument behind the 7-successor bound

At most 4 points that are pairwise at squared distance `≥ δ` fit in a
half-open `√δ × √δ` box.  Worked entirely with squared quantities so that
everything stays in `α`. -/

theorem same_cell_coord_inner {u v δ : α} (hu0 : 0 ≤ u) (hv0 : 0 ≤ v)
    (hu : 4 * u ^ 2 ≤ δ) (hv : 4 * v ^ 2 ≤ δ) : 4 * (u - v) ^ 2 ≤ δ := by
  rcases le_total v u with h | h
  · nlinarith [mul_nonneg hv0 (sub_nonneg.mpr h)]
  · nlinarith [mul_nonneg hu0 (sub_nonneg.mpr h)]

theorem same_cell_coord_outer {u v δ : α} (hu0 : 0 ≤ u) (hv0 : 0 ≤ v)
    (hu4 : δ < 4 * u ^ 2) (hv4 : δ < 4 * v ^ 2)
    (hu : u ^ 2 < δ) (hv : v ^ 2 < δ) : 4 * (u - v) ^ 2 < δ := by
  rcases le_total v u with h | h
  · have h2vu : 0 ≤ 2 * v - u := by nlinarith
    have h3uv : 0 ≤ 3 * u - 2 * v := by nlinarith
    nlinarith [mul_nonneg h2vu h3uv]
  · have h2vu : 0 ≤ 2 * u - v := by nlinarith
    have h3uv : 0 ≤ 3 * v - 2 * u := by nlinarith
    nlinarith [mul_nonneg h2vu h3uv]

theorem same_cell_row {y1 y2 ya yb δ : α} (h1a : ya ≤ y1) (h1b : y1 ≤ yb)
    (h2a : ya ≤ y2) (h2b : y2 ≤ yb) (hy : (yb - ya) ^ 2 < δ)
    (hrow : (2 * y1 ≤ ya + yb ↔ 2 * y2 ≤ ya + yb)) : 4 * (y1 - y2) ^ 2 < δ := by
  by_cases h : 2 * y1 ≤ ya + yb
  · have h2 : 2 * y2 ≤ ya + yb := hrow.mp h
    nlinarith [sq_nonneg (y1 - y2)]
  · have h2 : ¬ 2 * y2 ≤ ya + yb := fun hh => h (hrow.mpr hh)
    push_neg at h h2
    nlinarith [sq_nonneg (y1 - y2)]

theorem packing_left {S : List (Point α)} (δ midx ya yb : α)
    (hδ : 0 < δ) (hy : (yb - ya) ^ 2 < δ)
    (hbox : ∀ e ∈ S, e.x ≤ midx ∧ (e.x - midx) ^ 2 < δ ∧ ya ≤ e.y ∧ e.y ≤ yb)
    (hfar : ∀ p q : Point α, [p, q] <+~ S → δ ≤ dist2 p q) :
    S.length ≤ 4 := by
  by_contra hlen
  push_neg at hlen
  have hcard : Fintype.card (Bool × Bool) < Fintype.card (Fin S.length) := by
    simp only [Fintype.card_prod, Fintype.card_bool, Fintype.card_fin]
    omega
  obtain ⟨i, j, hij, hcell⟩ :=
    Fintype.exists_ne_map_eq_of_card_lt (fun i : Fin S.length => boxCell midx ya yb δ (S.get i))
      hcard
  set p := S.get i with hp
  set q := S.get j with hq
  have hpS : p ∈ S := List.get_mem S i i.2
  have hqS : q ∈ S := List.get_mem S j j.2
  obtain ⟨hpx, hpx2, hpya, hpyb⟩ := hbox p hpS
  obtain ⟨hqx, hqx2, hqya, hqyb⟩ := hbox q hqS
  have hfar' : δ ≤ dist2 p q := hfar p q (get_pair_subperm hij)
  have hcol : (4 * (p.x - midx) ^ 2 ≤ δ ↔ 4 * (q.x - midx) ^ 2 ≤ δ) := by
    have := congrArg Prod.fst hcell
    simpa [boxCell] using this
  have hrow : (2 * p.y ≤ ya + yb ↔ 2 * q.y ≤ ya + yb) := by
    have := congrArg Prod.snd hcell
    simpa [boxCell] using this
  have hdy : 4 * (p.y - q.y) ^ 2 < δ := same_cell_row hpya hpyb hqya hqyb hy hrow
  have hdx : 4 * (p.x - q.x) ^ 2 < δ ∨ 4 * (p.x - q.x) ^ 2 ≤ δ := by
    by_cases hin : 4 * (p.x - midx) ^ 2 ≤ δ
    · have hqin : 4 * (q.x - midx) ^ 2 ≤ δ := hcol.mp hin
      right
      have hux : 4 * (midx - p.x) ^ 2 ≤ δ := by
        rw [show (midx - p.x) ^ 2 = (p.x - midx) ^ 2 from by ring]; exact hin
      have hvx : 4 * (midx - q.x) ^ 2 ≤ δ := by
        rw [show (midx - q.x) ^ 2 = (q.x - midx) ^ 2 from by ring]; exact hqin
      have := same_cell_coord_inner (u := midx - p.x) (v := midx - q.x)
        (by linarith) (by linarith) hux hvx
      calc 4 * (p.x - q.x) ^ 2 = 4 * ((midx - p.x) - (midx - q.x)) ^ 2 := by ring
        _ ≤ δ := this
    · have hqin : ¬ 4 * (q.x - midx) ^ 2 ≤ δ := fun hh => hin (hcol.mpr hh)
      push_neg at hin hqin
      left
      have hux : δ < 4 * (midx - p.x) ^ 2 := by
        rw [show (midx - p.x) ^ 2 = (p.x - midx) ^ 2 from by ring]; exact hin
      have hvx : δ < 4 * (midx - q.x) ^ 2 := by
        rw [show (midx - q.x) ^ 2 = (q.x - midx) ^ 2 from by ring]; exact hqin
      have hux2 : (midx - p.x) ^ 2 < δ := by
        rw [show (midx - p.x) ^ 2 = (p.x - midx) ^ 2 from by ring]; exact hpx2
      have hvx2 : (midx - q.x) ^ 2 < δ := by
        rw [show (midx - q.x) ^ 2 = (q.x - midx) ^ 2 from by ring]; exact hqx2
      have := same_cell_coord_outer (u := midx - p.x) (v := midx - q.x)
        (by linarith) (by linarith) hux hvx hux2 hvx2
      calc 4 * (p.x - q.x) ^ 2 = 4 * ((midx - p.x) - (midx - q.x)) ^ 2 := by ring
        _ < δ := this
  have : dist2 p q < δ := by
    unfold dist2
    rcases hdx with hdx | hdx
    · nlinarith
    · nlinarith
  exact absurd hfar' (not_le.mpr this)

theorem packing_right {S : List (Point α)} (δ midx ya yb : α)
    (hδ : 0 < δ) (hy : (yb - ya) ^ 2 < δ)
    (hbox : ∀ e ∈ S, midx ≤ e.x ∧ (e.x - midx) ^ 2 < δ ∧ ya ≤ e.y ∧ e.y ≤ yb)
    (hfar : ∀ p q : Point α, [p, q] <+~ S → δ ≤ dist2 p q) :
    S.length ≤ 4 := by
  by_contra hlen
  push_neg at hlen
  have hcard : Fintype.card (Bool × Bool) < Fintype.card (Fin S.length) := by
    simp only [Fintype.card_prod, Fintype.card_bool, Fintype.card_fin]
    omega
  obtain ⟨i, j, hij, hcell⟩ :=
    Fintype.exists_ne_map_eq_of_card_lt (fun i : Fin S.length => boxCell midx ya yb δ (S.get i))
      hcard
  set p := S.get i with hp
  set q := S.get j with hq
  have hpS : p ∈ S := List.get_mem S i i.2
  have hqS : q ∈ S := List.get_mem S j j.2
  obtain ⟨hpx, hpx2, hpya, hpyb⟩ := hbox p hpS
  obtain ⟨hqx, hqx2, hqya, hqyb⟩ := hbox q hqS
  have hfar' : δ ≤ dist2 p q := hfar p q (get_pair_subperm hij)
  have hcol : (4 * (p.x - midx) ^ 2 ≤ δ ↔ 4 * (q.x - midx) ^ 2 ≤ δ) := by
    have := congrArg Prod.fst hcell
    simpa [boxCell] using this
  have hrow : (2 * p.y ≤ ya + yb ↔ 2 * q.y ≤ ya + yb) := by
    have := congrArg Prod.snd hcell
    simpa [boxCell] using this
  have hdy : 4 * (p.y - q.y) ^ 2 < δ := same_cell_row hpya hpyb hqya hqyb hy hrow
  have hdx : 4 * (p.x - q.x) ^ 2 < δ ∨ 4 * (p.x - q.x) ^ 2 ≤ δ := by
    by_cases hin : 4 * (p.x - midx) ^ 2 ≤ δ
    · have hqin : 4 * (q.x - midx) ^ 2 ≤ δ := hcol.mp hin
      right
      have := same_cell_coord_inner (u := p.x - midx) (v := q.x - midx)
        (by linarith) (by linarith) hin hqin
      calc 4 * (p.x - q.x) ^ 2 = 4 * ((p.x - midx) - (q.x - midx)) ^ 2 := by ring
        _ ≤ δ := this
    · have hqin : ¬ 4 * (q.x - midx) ^ 2 ≤ δ := fun hh => hin (hcol.mpr hh)
      push_neg at hin hqin
      left
      have := same_cell_coord_outer (u := p.x - midx) (v := q.x - midx)
        (by linarith) (by linarith) hin hqin hpx2 hqx2
      calc 4 * (p.x - q.x) ^ 2 = 4 * ((p.x - midx) - (q.x - midx)) ^ 2 := by ring
        _ < δ := this
  have : dist2 p q < δ := by
    unfold dist2
    rcases hdx with hdx | hdx
    · nlinarith
    · nlinarith
  exact absurd hfar' (not_le.mpr this)

/-- A sub-multiset of an append splits into a sub-multiset of each part. -/
theorem multiset_split {S A B : Multiset (Point α)} (h : S ≤ A + B) :
    ∃ SA SB, S = SA + SB ∧ SA ≤ A ∧ SB ≤ B := by
  refine ⟨S ∩ A, S - A, ?_, Multiset.inter_le_right S A, ?_⟩
  · rw [Multiset.ext]
    intro a
    simp only [Multiset.count_add, Multiset.count_inter, Multiset.count_sub]
    omega
  · rw [tsub_le_iff_right]
    calc S ≤ A + B := h
      _ = B + A := add_comm A B

theorem subperm_append_split {l A B : List (Point α)} (h : l <+~ A ++ B) :
    ∃ lA lB : List (Point α), List.Perm l (lA ++ lB) ∧ lA <+~ A ∧ lB <+~ B := by
  have hm : (l : Multiset (Point α)) ≤ (A : Multiset (Point α)) + (B : Multiset (Point α)) := by
    have : ((A ++ B : List (Point α)) : Multiset (Point α)) = (A : Multiset (Point α)) + B := rfl
    rw [← this]
    exact Multiset.coe_le.mpr h
  obtain ⟨SA, SB, hS, hA, hB⟩ := multiset_split hm
  refine ⟨SA.toList, SB.toList, ?_, ?_, ?_⟩
  · rw [← Multiset.coe_eq_coe]
    have : ((SA.toList ++ SB.toList : List (Point α)) : Multiset (Point α)) = ↑SA.toList + ↑SB.toList :=
      rfl
    rw [this, Multiset.coe_toList, Multiset.coe_toList, ← hS]
  · rw [← Multiset.coe_le, Multiset.coe_toList]
    exact hA
  · rw [← Multiset.coe_le, Multiset.coe_toList]
    exact hB

/-- The geometric heart of the strip scan: inside the strip, two points at
squared distance `< δ` are at most 7 positions apart in y-order, because
the y-window they span meets at most 4 left-half and 4 right-half points. -/
theorem strip_window {strip Qx Rx : List (Point α)} {δ midx : α}
    (hsorted : List.Sorted leY strip)
    (hδ : 0 < δ)
    (hxQ : ∀ e ∈ Qx, e.x ≤ midx) (hxR : ∀ e ∈ Rx, midx ≤ e.x)
    (hfarQ : ∀ p q : Point α, [p, q] <+~ Qx → δ ≤ dist2 p q)
    (hfarR : ∀ p q : Point α, [p, q] <+~ Rx → δ ≤ dist2 p q)
    (hsub : strip <+~ Qx ++ Rx)
    (hstripx : ∀ e ∈ strip, (e.x - midx) ^ 2 < δ)
    {i j : Fin strip.length} (hij : i < j)
    (hclose : dist2 (strip.get i) (strip.get j) < δ) :
    (j : ℕ) ≤ (i : ℕ) + 7 := by
  by_contra h7
  push_neg at h7
  set ya := (strip.get i).y with hya
  set yb := (strip.get j).y with hyb
  have hyab : (yb - ya) ^ 2 < δ := by
    calc (yb - ya) ^ 2 = ((strip.get j).y - (strip.get i).y) ^ 2 := rfl
      _ ≤ dist2 (strip.get j) (strip.get i) := dy_sq_le_dist2 _ _
      _ = dist2 (strip.get i) (strip.get j) := dist2_comm _ _
      _ < δ := hclose
  set W := (strip.drop (i : ℕ)).take ((j : ℕ) - (i : ℕ) + 1) with hW
  have hWlen : W.length = (j : ℕ) - (i : ℕ) + 1 := by
    rw [hW, List.length_take, List.length_drop]
    have := j.2
    omega
  have hWsub : W <+ strip := (List.take_sublist _ _).trans (List.drop_sublist _ _)
  have hWget : ∀ (k : ℕ) (hk : k < W.length),
      ∃ hik : (i : ℕ) + k < strip.length, W.get ⟨k, hk⟩ = strip.get ⟨(i : ℕ) + k, hik⟩ := by
    intro k hk
    have hik : (i : ℕ) + k < strip.length := by
      have := j.2
      rw [hWlen] at hk
      omega
    refine ⟨hik, ?_⟩
    simp only [hW, List.get_eq_getElem, List.getElem_take, List.getElem_drop]
  have hWprop : ∀ e ∈ W, ya ≤ e.y ∧ e.y ≤ yb ∧ (e.x - midx) ^ 2 < δ := by
    intro e he
    obtain ⟨⟨k, hk⟩, hek⟩ := List.mem_iff_get.mp he
    obtain ⟨hik, hget⟩ := hWget k hk
    have hkj : (i : ℕ) + k ≤ (j : ℕ) := by
      rw [hWlen] at hk
      omega
    have h1 : leY (strip.get i) (strip.get ⟨(i : ℕ) + k, hik⟩) := by
      apply hsorted.rel_get_of_le
      rw [Fin.le_def]
      exact Nat.le_add_right _ _
    have h2 : leY (strip.get ⟨(i : ℕ) + k, hik⟩) (strip.get j) := by
      apply hsorted.rel_get_of_le
      rw [Fin.le_def]
      exact hkj
    have he' : e = strip.get ⟨(i : ℕ) + k, hik⟩ := by rw [← hek, hget]
    refine ⟨?_, ?_, ?_⟩
    · rw [he']; exact leY_y_le h1
    · rw [he']; exact leY_y_le h2
    · exact hstripx e (hWsub.subset he)
  obtain ⟨WA, WB, hWperm, hWA, hWB⟩ := subperm_append_split (hWsub.subperm.trans hsub)
  have hWAmem : ∀ e ∈ WA, e ∈ W := fun e he =>
    hWperm.mem_iff.mpr (List.mem_append_left _ he)
  have hWBmem : ∀ e ∈ WB, e ∈ W := fun e he =>
    hWperm.mem_iff.mpr (List.mem_append_right _ he)
  have hA4 : WA.length ≤ 4 := by
    apply packing_left δ midx ya yb hδ hyab
    · intro e he
      obtain ⟨h1, h2, h3⟩ := hWprop e (hWAmem e he)
      exact ⟨hxQ e (hWA.subset he), h3, h1, h2⟩
    · intro p q hpq
      exact hfarQ p q (hpq.trans hWA)
  have hB4 : WB.length ≤ 4 := by
    apply packing_right δ midx ya yb hδ hyab
    · intro e he
      obtain ⟨h1, h2, h3⟩ := hWprop e (hWBmem e he)
      exact ⟨hxR e (hWB.subset he), h3, h1, h2⟩
    · intro p q hpq
      exact hfarR p q (hpq.trans hWB)
  have : W.length = WA.length + WB.length := by
    rw [hWperm.length_eq, List.length_append]
  omega

/-! ### The value-membership partition -/

theorem sorted_rel_getLast {r : Point α → Point α → Prop} [IsRefl (Point α) r] :
    ∀ {l : List (Point α)}, List.Sorted r l → ∀ (hne : l ≠ []) (a : Point α), a ∈ l →
      r a (l.getLast hne) := by
  intro l
  induction l with
  | nil => intro _ hne; exact absurd rfl hne
  | cons x t ih =>
    intro hs hne a ha
    cases t with
    | nil =>
      have : a = x := by simpa using ha
      subst this
      exact IsRefl.refl a
    | cons y t' =>
      rw [List.getLast_cons (by simp)]
      rcases List.mem_cons.mp ha with rfl | ha'
      · exact (List.pairwise_cons.mp hs).1 _ (List.getLast_mem _)
      · exact ih hs.of_cons (by simp) a ha'

/-- When a duplicated coordinate value straddles the midpoint split of the
sorted x-order, that value is exactly the last point of the left half (the
point whose x-coordinate becomes `midx`). -/
theorem straddle_getLast {px : List (Point α)} (hs : List.Sorted leX px) {mid : Nat} {v : Point α}
    (hvQ : v ∈ px.take mid) (hvR : v ∈ px.drop mid) (hne : px.take mid ≠ []) :
    (px.take mid).getLast hne = v := by
  have hsQ : List.Sorted leX (px.take mid) := List.Pairwise.sublist (List.take_sublist mid px) hs
  have h1 : leX v ((px.take mid).getLast hne) := sorted_rel_getLast hsQ hne v hvQ
  have h2 : leX ((px.take mid).getLast hne) v :=
    hs.rel_of_mem_take_of_mem_drop (List.getLast_mem hne) hvR
  exact leX_antisymm h2 h1

/-- When no coordinate value occurs in both halves, the value-membership
filters of lines 82–84 of the source are honest stable partitions: `Qy`
(resp. `Ry`) is a permutation of the left (resp. right) half. -/
theorem clean_partition {px py : List (Point α)} (mid : Nat)
    (hperm : List.Perm py px)
    (hdisj : ∀ v ∈ px.take mid, v ∉ px.drop mid) :
    List.Perm (py.filter fun p => decide (p ∈ px.take mid)) (px.take mid) ∧
    List.Perm (py.filter fun p => decide (p ∉ px.take mid)) (px.drop mid) := by
  have hsplit : ∀ a : Point α,
      List.count a px = List.count a (px.take mid) + List.count a (px.drop mid) := by
    intro a
    conv_lhs => rw [← List.take_append_drop mid px]
    rw [List.count_append]
  constructor
  · rw [List.perm_iff_count]
    intro a
    by_cases ha : a ∈ px.take mid
    · rw [List.count_filter (by simpa using ha)]
      have hR : List.count a (px.drop mid) = 0 := List.count_eq_zero.mpr (hdisj a ha)
      have := hsplit a
      have hpy : List.count a py = List.count a px := hperm.count_eq a
      omega
    · have h1 : List.count a (py.filter fun p => decide (p ∈ px.take mid)) = 0 := by
        apply List.count_eq_zero.mpr
        intro hmem
        exact ha (by simpa using (List.mem_filter.mp hmem).2)
      have h2 : List.count a (px.take mid) = 0 := List.count_eq_zero.mpr ha
      rw [h1, h2]
  · rw [List.perm_iff_count]
    intro a
    by_cases ha : a ∈ px.take mid
    · have h1 : List.count a (py.filter fun p => decide (p ∉ px.take mid)) = 0 := by
        apply List.count_eq_zero.mpr
        intro hmem
        exact (by simpa using (List.mem_filter.mp hmem).2 : a ∉ px.take mid) ha
      have h2 : List.count a (px.drop mid) = 0 := List.count_eq_zero.mpr (hdisj a ha)
      rw [h1, h2]
    · rw [List.count_filter (by simpa using ha)]
      have h2 : List.count a (px.take mid) = 0 := List.count_eq_zero.mpr ha
      have := hsplit a
      have hpy : List.count a py = List.count a px := hperm.count_eq a
      omega

/-- In a y-sorted list, two copies of the same point are adjacent somewhere. -/
theorem sorted_dup_split {l : List (Point α)} (hs : List.Sorted leY l) {v : Point α}
    (h : [v, v] <+ l) : ∃ l₁ l₂ : List (Point α), l = l₁ ++ v :: v :: l₂ := by
  induction l with
  | nil => cases h
  | cons x t ih =>
    cases h with
    | cons _ h' =>
      obtain ⟨l₁, l₂, rfl⟩ := ih hs.of_cons h'
      exact ⟨x :: l₁, l₂, rfl⟩
    | cons₂ _ h' =>
      have hvt : v ∈ t := List.singleton_sublist.mp h'
      match t, hs, hvt with
      | y :: t', hs, hvt =>
        have h1 : leY v y := (List.pairwise_cons.mp hs).1 y (List.mem_cons_self _ _)
        have h2 : leY y v := by
          rcases List.mem_cons.mp hvt with rfl | hvt'
          · exact leY_refl v
          · exact (List.pairwise_cons.mp hs.of_cons).1 v hvt'
        have hyv : y = v := leY_antisymm h2 h1
        exact ⟨[], t', by simp [hyv]⟩

/-! ### Case analysis for a pair drawn from an appended list -/

theorem mem_mem_subperm_pair {A B : List (Point α)} {p q : Point α} (hp : p ∈ A) (hq : q ∈ B) :
    [p, q] <+~ A ++ B := by
  by_cases hpq : p = q
  · subst hpq
    have h2 : 2 ≤ List.count p (A ++ B) := by
      rw [List.count_append]
      have h1 : 0 < List.count p A := List.count_pos_iff.mpr hp
      have h2 : 0 < List.count p B := List.count_pos_iff.mpr hq
      omega
    have := List.le_count_iff_replicate_sublist.mp h2
    exact (by simpa [List.replicate] using this : [p, p] <+ A ++ B).subperm
  · apply List.subperm_of_subset (by simp [hpq])
    intro a ha
    rcases List.mem_pair.mp ha with rfl | rfl
    · exact List.mem_append_left _ hp
    · exact List.mem_append_right _ hq

theorem pair_subperm_append_cases {A B : List (Point α)} {p q : Point α} (h : [p, q] <+~ A ++ B) :
    [p, q] <+~ A ∨ [p, q] <+~ B ∨ (p ∈ A ∧ q ∈ B) ∨ (q ∈ A ∧ p ∈ B) := by
  obtain ⟨lA, lB, hperm, hA, hB⟩ := subperm_append_split h
  have hlen : lA.length + lB.length = 2 := by
    have := hperm.length_eq
    simp only [List.length_append] at this
    simpa using this.symm
  rcases lA with _ | ⟨a, _ | ⟨a2, lA'⟩⟩
  · exact Or.inr (Or.inl ((hperm.trans (by simp)).subperm.trans hB))
  · rcases lB with _ | ⟨b, _ | ⟨b2, lB'⟩⟩
    · simp only [List.length_cons, List.length_nil] at hlen
      omega
    · have ha : a ∈ A := List.singleton_subperm_iff.mp hA
      have hb : b ∈ B := List.singleton_subperm_iff.mp hB
      rcases perm_pair_eq hperm.symm with heq | heq
      · have h1 : a = p ∧ b = q := by simpa using heq
        obtain ⟨rfl, rfl⟩ := h1
        exact Or.inr (Or.inr (Or.inl ⟨ha, hb⟩))
      · have h1 : a = q ∧ b = p := by simpa using heq
        obtain ⟨rfl, rfl⟩ := h1
        exact Or.inr (Or.inr (Or.inr ⟨ha, hb⟩))
    · simp only [List.length_cons, List.length_nil] at hlen
      omega
  · rcases lB with _ | ⟨b, lB'⟩
    · exact Or.inl ((hperm.trans (by simp)).subperm.trans hA)
    · simp only [List.length_cons, List.length_nil] at hlen
      omega

theorem sq_sub_le_left {a m b : α} (h1 : a ≤ m) (h2 : m ≤ b) : (a - m) ^ 2 ≤ (a - b) ^ 2 := by
  nlinarith [mul_nonneg (sub_nonneg.mpr h2) (by linarith : (0 : α) ≤ m + b - 2 * a)]

theorem sq_sub_le_right {a m b : α} (h1 : a ≤ m) (h2 : m ≤ b) : (b - m) ^ 2 ≤ (a - b) ^ 2 := by
  nlinarith [mul_nonneg (sub_nonneg.mpr h1) (by linarith : (0 : α) ≤ 2 * b - a - m)]

theorem filter_pair_eq {f : Point α → Bool} {u w : Point α} (hu : f u = true) (hw : f w = true) :
    List.filter f [u, w] = [u, w] := by
  rw [List.filter_cons_of_pos hu, List.filter_cons_of_pos hw, List.filter_nil]

theorem stripPairs_adjacent :
    ∀ (l₁ : List (Point α)) (u w : Point α) (l₂ : List (Point α)),
      (u, w) ∈ stripPairs (l₁ ++ u :: w :: l₂) := by
  intro l₁
  induction l₁ with
  | nil =>
    intro u w l₂
    apply List.mem_append_left
    apply List.mem_map.mpr
    exact ⟨w, by simp [List.take], rfl⟩
  | cons x t ih =>
    intro u w l₂
    exact List.mem_append_right _ (ih u w l₂)

/-! ### Completeness of the recursion

On coherent inputs (`px` x-sorted, `py` y-sorted, same multiset) the value
returned is a lower bound for the squared distance of every pair of
distinct positions of the input.  Together with `closestPairRec_some` this
yields the exact-minimum theorem. -/

theorem closestPairRec_complete :
    ∀ (fuel : Nat) (px py : List (Point α)),
      px.length ≤ fuel →
      List.Sorted leX px → List.Sorted leY py → List.Perm py px →
      ∀ (d : WithTop α) (bp : Point α × Point α),
        closestPairRec fuel px py = some (d, bp) →
        ∀ p q : Point α, [p, q] <+~ px → d ≤ ((dist2 p q : α) : WithTop α) := by
  intro fuel
  induction fuel with
  | zero =>
    intro px py _ _ _ _ d bp hrec
    rw [show closestPairRec 0 px py = none from rfl] at hrec
    cases hrec
  | succ fuel ih =>
    intro px py hf hsx hsy hperm d bp hrec p q hpq
    have h2 : 2 ≤ px.length := by
      have := hpq.length_le
      simpa using this
    by_cases h3 : px.length ≤ 3
    · rw [closestPairRec_base h3] at hrec
      obtain ⟨dq, bp', heq, _, _, hcompl, _⟩ := brute_force_spec h2
      rw [heq] at hrec
      have h := Option.some.inj hrec
      have h1 : ((dq : WithTop α)) = d := congrArg Prod.fst h
      rw [← h1]
      exact WithTop.coe_le_coe.mpr (hcompl p q hpq)
    · have hlen4 : 4 ≤ px.length := by omega
      set mid := px.length / 2 with hmiddef
      set Qx := px.take mid with hQxdef
      set Rx := px.drop mid with hRxdef
      set Qy := py.filter (fun r => decide (r ∈ Qx)) with hQydef
      set Ry := py.filter (fun r => decide (r ∉ Qx)) with hRydef
      have hQR : Qx ++ Rx = px := List.take_append_drop mid px
      have hQlen : Qx.length = mid := by rw [hQxdef, List.length_take]; omega
      have hRlen : Rx.length = px.length - mid := by rw [hRxdef]; exact List.length_drop _ _
      have hQ2 : 2 ≤ Qx.length := by omega
      have hR2 : 2 ≤ Rx.length := by omega
      have hQne : Qx ≠ [] := by
        intro hnil
        rw [hnil] at hQlen
        simp at hQlen
        omega
      obtain ⟨qlast, hlast⟩ : ∃ qlast, Qx.getLast? = some qlast :=
        ⟨Qx.getLast hQne, List.getLast?_eq_getLast Qx hQne⟩
      have hqlast_get : Qx.getLast hQne = qlast := by
        have h := List.getLast?_eq_getLast Qx hQne
        rw [hlast] at h
        exact (Option.some.inj h).symm
      obtain ⟨dlq, pl, hl, hdl, _⟩ := closestPairRec_some fuel Qx Qy (by omega) hQ2
      obtain ⟨drq, pr, hr, hdr, _⟩ := closestPairRec_some fuel Rx Ry (by omega) hR2
      have hnode := closestPairRec_node h3 hlast hl hr
      rw [hnode] at hrec
      set best : WithTop α × (Point α × Point α) :=
        if ((dlq : WithTop α)) ≤ ((drq : WithTop α)) then ((dlq : WithTop α), pl)
          else ((drq : WithTop α), pr) with hbestdef
      set δ0 : α := min dlq drq with hδ0def
      have hbestfst : best.1 = (δ0 : WithTop α) := by
        rw [hbestdef, hδ0def]
        split
        · rename_i hcase
          rw [min_eq_left (WithTop.coe_le_coe.mp hcase)]
        · rename_i hcase
          push_neg at hcase
          rw [min_eq_right (le_of_lt (WithTop.coe_lt_coe.mp hcase))]
      set strip := py.filter (fun r =>
        decide ((((r.x - qlast.x) ^ 2 : α) : WithTop α) < best.1)) with hstripdef
      have hd_eq : d = ((stripPairs strip).foldl upd best).1 :=
        (congrArg Prod.fst (Option.some.inj hrec)).symm
      have hd_le_δ0 : d ≤ (δ0 : WithTop α) := by
        rw [hd_eq, ← hbestfst]
        exact foldl_upd_fst_le_init _ _
      have hs_strip : List.Sorted leY strip := hsy.filter _
      have hstrip_mem_x : ∀ e ∈ strip, (e.x - qlast.x) ^ 2 < δ0 := by
        intro e he
        have h := (List.mem_filter.mp he).2
        rw [hbestfst] at h
        exact WithTop.coe_lt_coe.mp (of_decide_eq_true h)
      by_cases hstraddle : ∃ v, v ∈ Qx ∧ v ∈ Rx
      · -- a duplicated value straddles the split: the answer is 0
        obtain ⟨v, hvQ, hvR⟩ := hstraddle
        have hqv : qlast = v := by
          have h := straddle_getLast hsx hvQ hvR hQne
          rw [hqlast_get] at h
          exact h
        suffices hd0 : d ≤ ((0 : α) : WithTop α) by
          exact hd0.trans (WithTop.coe_le_coe.mpr (dist2_nonneg p q))
        by_cases hδpos : 0 < δ0
        · have hcsplit : List.count v px = List.count v Qx + List.count v Rx := by
            conv_lhs => rw [← List.take_append_drop mid px]
            exact List.count_append _ _ _
          have hc : 2 ≤ List.count v px := by
            have h1 : 0 < List.count v Qx := List.count_pos_iff.mpr hvQ
            have h2' : 0 < List.count v Rx := List.count_pos_iff.mpr hvR
            omega
          have hvv_px : [v, v] <+~ px := by
            have h := List.le_count_iff_replicate_sublist.mp hc
            exact (by simpa [List.replicate] using h : [v, v] <+ px).subperm
          have hvv_py : [v, v] <+~ py := hvv_px.trans hperm.symm.subperm
          have hpassv : decide ((((v.x - qlast.x) ^ 2 : α) : WithTop α) < best.1) = true := by
            apply decide_eq_true
            rw [hbestfst, hqv]
            have h0 : ((v.x - v.x) ^ 2 : α) = 0 := by ring
            rw [h0]
            exact WithTop.coe_lt_coe.mpr hδpos
          have hvv_strip : [v, v] <+~ strip := by
            have hfil := List.Subperm.filter
              (fun r => decide ((((r.x - qlast.x) ^ 2 : α) : WithTop α) < best.1)) hvv_py
            rw [filter_pair_eq hpassv hpassv] at hfil
            exact hfil
          have hvvsub : [v, v] <+ strip := by
            rcases hvv_strip with ⟨l', hl', hsubl⟩
            rcases perm_pair_eq hl' with rfl | rfl <;> exact hsubl
          obtain ⟨s₁, s₂, hsplit⟩ := sorted_dup_split hs_strip hvvsub
          have hpairmem : (v, v) ∈ stripPairs strip := by
            rw [hsplit]
            exact stripPairs_adjacent s₁ v v s₂
          have hle := foldl_upd_fst_le_mem (v, v) best hpairmem
          rw [hd_eq]
          calc ((stripPairs strip).foldl upd best).1
              ≤ ((dist2 v v : α) : WithTop α) := hle
            _ = ((0 : α) : WithTop α) := by rw [dist2_self]
        · push_neg at hδpos
          exact hd_le_δ0.trans (WithTop.coe_le_coe.mpr hδpos)
      · -- clean split: the classic divide-and-conquer argument
        push_neg at hstraddle
        obtain ⟨hQperm, hRperm⟩ := clean_partition mid hperm hstraddle
        have hsQx : List.Sorted leX Qx := List.Pairwise.sublist (List.take_sublist _ _) hsx
        have hsRx : List.Sorted leX Rx := List.Pairwise.sublist (List.drop_sublist _ _) hsx
        have hsQy : List.Sorted leY Qy := hsy.filter _
        have hsRy : List.Sorted leY Ry := hsy.filter _
        have ihQ := ih Qx Qy (by omega) hsQx hsQy hQperm ((dlq : WithTop α)) pl hl
        have ihR := ih Rx Ry (by omega) hsRx hsRy hRperm ((drq : WithTop α)) pr hr
        have hfarQ : ∀ a b : Point α, [a, b] <+~ Qx → δ0 ≤ dist2 a b := by
          intro a b hab
          exact le_trans (min_le_left _ _) (WithTop.coe_le_coe.mp (ihQ a b hab))
        have hfarR : ∀ a b : Point α, [a, b] <+~ Rx → δ0 ≤ dist2 a b := by
          intro a b hab
          exact le_trans (min_le_right _ _) (WithTop.coe_le_coe.mp (ihR a b hab))
        have hxQ : ∀ e ∈ Qx, e.x ≤ qlast.x := by
          intro e he
          have h := sorted_rel_getLast hsQx hQne e he
          rw [hqlast_get] at h
          exact leX_x_le h
        have hqlast_mem : qlast ∈ Qx := by
          rw [← hqlast_get]
          exact List.getLast_mem hQne
        have hxR : ∀ e ∈ Rx, qlast.x ≤ e.x := by
          intro e he
          exact leX_x_le (hsx.rel_of_mem_take_of_mem_drop hqlast_mem he)
        have hstrip_sub : strip <+~ Qx ++ Rx := by
          rw [hQR]
          exact (List.filter_sublist py).subperm.trans hperm.subperm
        have hcross : ∀ a b : Point α, a ∈ Qx → b ∈ Rx → d ≤ ((dist2 a b : α) : WithTop α) := by
          intro a b ha hb
          by_cases hclose : dist2 a b < δ0
          · have hδpos : 0 < δ0 := lt_of_le_of_lt (dist2_nonneg a b) hclose
            have hax : a.x ≤ qlast.x := hxQ a ha
            have hbx : qlast.x ≤ b.x := hxR b hb
            have hpassa : decide ((((a.x - qlast.x) ^ 2 : α) : WithTop α) < best.1) = true := by
              apply decide_eq_true
              rw [hbestfst]
              apply WithTop.coe_lt_coe.mpr
              calc (a.x - qlast.x) ^ 2 ≤ (a.x - b.x) ^ 2 := sq_sub_le_left hax hbx
                _ ≤ dist2 a b := dx_sq_le_dist2 a b
                _ < δ0 := hclose
            have hpassb : decide ((((b.x - qlast.x) ^ 2 : α) : WithTop α) < best.1) = true := by
              apply decide_eq_true
              rw [hbestfst]
              apply WithTop.coe_lt_coe.mpr
              calc (b.x - qlast.x) ^ 2 ≤ (a.x - b.x) ^ 2 := sq_sub_le_right hax hbx
                _ ≤ dist2 a b := dx_sq_le_dist2 a b
                _ < δ0 := hclose
            have hab_py : [a, b] <+~ py := by
              have h1 : [a, b] <+~ Qx ++ Rx := mem_mem_subperm_pair ha hb
              rw [hQR] at h1
              exact h1.trans hperm.symm.subperm
            have hab_strip : [a, b] <+~ strip := by
              have hfil := List.Subperm.filter
                (fun r => decide ((((r.x - qlast.x) ^ 2 : α) : WithTop α) < best.1)) hab_py
              rw [filter_pair_eq hpassa hpassb] at hfil
              exact hfil
            rw [hd_eq]
            rcases subperm_pair_cases hab_strip with hmem | hmem
            · obtain ⟨i, j, hij, hi, hj⟩ := allPairsL_get hmem
              have hclose' : dist2 (strip.get i) (strip.get j) < δ0 := by
                rw [hi, hj]
                exact hclose
              have h7 := strip_window hs_strip hδpos hxQ hxR hfarQ hfarR hstrip_sub
                hstrip_mem_x hij hclose'
              have hmem2 := mem_stripPairs_of_get hij h7
              have hle := foldl_upd_fst_le_mem (strip.get i, strip.get j) best hmem2
              rw [hi, hj] at hle
              exact hle
            · obtain ⟨i, j, hij, hi, hj⟩ := allPairsL_get hmem
              have hclose' : dist2 (strip.get i) (strip.get j) < δ0 := by
                rw [hi, hj, dist2_comm]
                exact hclose
              have h7 := strip_window hs_strip hδpos hxQ hxR hfarQ hfarR hstrip_sub
                hstrip_mem_x hij hclose'
              have hmem2 := mem_stripPairs_of_get hij h7
              have hle := foldl_upd_fst_le_mem (strip.get i, strip.get j) best hmem2
              rw [hi, hj, dist2_comm b a] at hle
              exact hle
          · push_neg at hclose
            exact hd_le_δ0.trans (WithTop.coe_le_coe.mpr hclose)
        have hpq' : [p, q] <+~ Qx ++ Rx := by
          rw [hQR]
          exact hpq
        rcases pair_subperm_append_cases hpq' with hQQ | hRR | ⟨hpA, hqB⟩ | ⟨hqA, hpB⟩
        · exact hd_le_δ0.trans (WithTop.coe_le_coe.mpr (hfarQ p q hQQ))
        · exact hd_le_δ0.trans (WithTop.coe_le_coe.mpr (hfarR p q hRR))
        · exact hcross p q hpA hqB
        · have h := hcross q p hqA hpB
          rw [dist2_comm q p] at h
          exact h

/-! ### Assembly: full functional correctness of `closest_pair` -/

theorem foldl_upd_sound_strict :
    ∀ {l : List (Point α × Point α)} (acc) {r}, l.foldl upd acc = r →
      r = acc ∨ ∃ pq ∈ l, r = (((dist2 pq.1 pq.2 : α) : WithTop α), pq) ∧
        (((dist2 pq.1 pq.2 : α) : WithTop α)) < acc.1 := by
  intro l
  induction l with
  | nil => intro acc r h; exact Or.inl h.symm
  | cons x t ih =>
    intro acc r h
    rcases ih (upd acc x) h with h' | ⟨pq, hpq, rfl, hlt⟩
    · have hx : upd acc x = acc ∨
          (upd acc x = (((dist2 x.1 x.2 : α) : WithTop α), x) ∧
            (((dist2 x.1 x.2 : α) : WithTop α)) < acc.1) := by
        unfold upd
        split
        · exact Or.inr ⟨rfl, by assumption⟩
        · exact Or.inl rfl
      rcases hx with hx | ⟨hx, hxlt⟩
      · exact Or.inl (h'.trans hx)
      · exact Or.inr ⟨x, List.mem_cons_self _ _, h'.trans hx, hxlt⟩
    · exact Or.inr ⟨pq, List.mem_cons_of_mem _ hpq, rfl,
        lt_of_lt_of_le hlt (upd_fst_le acc x)⟩

theorem count_filter_eq (f : Point α → Bool) (e : Point α) (l : List (Point α)) :
    List.count e (l.filter f) = if f e = true then List.count e l else 0 := by
  by_cases h : f e = true
  · rw [if_pos h, List.count_filter h]
  · rw [if_neg h]
    apply List.count_eq_zero.mpr
    intro hmem
    exact h (List.mem_filter.mp hmem).2

/-- Full functional correctness: on any input with at least two points,
`closest_pair` returns the exact minimum squared pairwise distance of the
input multiset, attained by the returned pair, which is itself a pair of
two distinct positions of the input. -/
theorem closest_pair_spec {pts : List (Point α)} (h2 : 2 ≤ pts.length) :
    ∃ (dq : α) (bp : Point α × Point α),
      closest_pair pts = some ((dq : WithTop α), bp) ∧
      dq = dist2 bp.1 bp.2 ∧ [bp.1, bp.2] <+~ pts ∧
      ((dq : WithTop α)) = minDist2 pts := by
  have hlen : (sortX pts).length = pts.length := sortX_length pts
  obtain ⟨dq, bp, hrec, hd, hsub⟩ :=
    closestPairRec_some pts.length (sortX pts) (sortY pts) (by omega) (by omega)
  have hcompl := closestPairRec_complete pts.length (sortX pts) (sortY pts) (by omega)
    (sortX_sorted pts) (sortY_sorted pts) ((sortY_perm pts).trans (sortX_perm pts).symm)
    ((dq : WithTop α)) bp hrec
  have hsub' : [bp.1, bp.2] <+~ pts := by
    rcases hsub with h | h
    · exact h.trans (sortX_perm pts).subperm
    · exact h.trans (sortY_perm pts).subperm
  have hres : closest_pair pts = some ((dq : WithTop α), bp) := by
    unfold closest_pair
    rw [if_neg (by omega)]
    exact hrec
  refine ⟨dq, bp, hres, hd, hsub', ?_⟩
  apply LE.le.antisymm
  · apply le_minDist2
    intro p q hpq
    exact hcompl p q (hpq.trans (sortX_perm pts).symm.subperm)
  · have := minDist2_le_of_subperm hsub'
    rw [hd]
    exact this

theorem exists_pair_subperm_of_length {l : List (Point α)} (h2 : 2 ≤ l.length) :
    ∃ a b : Point α, [a, b] <+~ l := by
  match l, h2 with
  | a :: b :: t, _ =>
    exact ⟨a, b, ((List.singleton_sublist.mpr (List.mem_cons_self b t)).cons₂ a).subperm⟩

/-- Evaluation of `closest_pair` on the spec's §8 example set (performed in
stages so that each kernel computation is on an explicit list). -/
theorem examplePts_eval :
    closest_pair examplePts = some (((1 : ℤ) : WithTop ℤ), (⟨3, 4⟩, ⟨4, 4⟩)) := by
  have hx : sortX examplePts
      = [⟨0, 0⟩, ⟨1, 1⟩, ⟨2, 3⟩, ⟨3, 4⟩, ⟨4, 4⟩, ⟨5, 1⟩, ⟨6, 6⟩, ⟨7, 2⟩, ⟨8, 5⟩, ⟨9, 1⟩] := by
    decide
  have hy : sortY examplePts
      = [⟨0, 0⟩, ⟨1, 1⟩, ⟨5, 1⟩, ⟨9, 1⟩, ⟨7, 2⟩, ⟨2, 3⟩, ⟨3, 4⟩, ⟨4, 4⟩, ⟨8, 5⟩, ⟨6, 6⟩] := by
    decide
  have hrec : closestPairRec 10
      [(⟨0, 0⟩ : Point ℤ), ⟨1, 1⟩, ⟨2, 3⟩, ⟨3, 4⟩, ⟨4, 4⟩, ⟨5, 1⟩, ⟨6, 6⟩, ⟨7, 2⟩, ⟨8, 5⟩, ⟨9, 1⟩]
      [⟨0, 0⟩, ⟨1, 1⟩, ⟨5, 1⟩, ⟨9, 1⟩, ⟨7, 2⟩, ⟨2, 3⟩, ⟨3, 4⟩, ⟨4, 4⟩, ⟨8, 5⟩, ⟨6, 6⟩]
      = some (((1 : ℤ) : WithTop ℤ), (⟨3, 4⟩, ⟨4, 4⟩)) := by decide
  unfold closest_pair
  rw [if_neg (by decide)]
  rw [show examplePts.length = 10 from rfl, hx, hy]
  exact hrec

/-! ### The claims -/

/-- **C1.** For every finite list of at least 2 points, `closest_pair`
returns a distance equal to the minimum pairwise Euclidean distance over
the whole input — the brute-force oracle run over the full set — and in
particular returns 0 when all input points are identical.  (Squared
distances; `√` is strictly monotone, see the module header.)  The returned
value is moreover attained by the returned pair, itself a pair of two
distinct positions of the input. -/
theorem C1_closest_pair_equals_min_distance (pts : List (Point α)) (h2 : 2 ≤ pts.length) :
    ∃ (dq : α) (bp : Point α × Point α),
      closest_pair pts = some ((dq : WithTop α), bp) ∧
      ((dq : WithTop α)) = minDist2 pts ∧
      dq = dist2 bp.1 bp.2 ∧ [bp.1, bp.2] <+~ pts ∧
      (∀ bd bbp, brute_force pts = some (bd, bbp) → bd = (dq : WithTop α)) ∧
      ((∀ r ∈ pts, ∀ s ∈ pts, r = s) → dq = 0) := by
  obtain ⟨dq, bp, hres, hd, hsub, hmin⟩ := closest_pair_spec h2
  refine ⟨dq, bp, hres, hmin, hd, hsub, ?_, ?_⟩
  · intro bd bbp hbf
    obtain ⟨bq, bbp', hbf', _, _, _, hbmin⟩ := brute_force_spec h2
    rw [hbf'] at hbf
    have h1 : (bq : WithTop α) = bd := by
      have := congrArg Prod.fst (Option.some.inj hbf)
      simpa using this
    rw [← h1, hbmin, ← hmin]
  · intro hall
    obtain ⟨a, b, hab⟩ := exists_pair_subperm_of_length h2
    have haz : a ∈ pts := hab.subset (List.mem_cons_self _ _)
    have hbz : b ∈ pts := hab.subset (by simp)
    have hba : b = a := hall b hbz a haz
    have h0 : minDist2 pts ≤ ((0 : α) : WithTop α) := by
      have := minDist2_le_of_subperm hab
      rw [hba, dist2_self] at this
      exact this
    have hge : 0 ≤ dq := by
      rw [hd]
      exact dist2_nonneg bp.1 bp.2
    have hle : dq ≤ 0 := by
      apply WithTop.coe_le_coe.mp
      rw [hmin]
      exact h0
    exact le_antisymm hle hge

/-- Witness for C1 at a concrete input. -/
theorem C1_witness :
    2 ≤ ([(⟨0, 0⟩ : Point ℤ), ⟨0, 1⟩, ⟨5, 5⟩] : List (Point ℤ)).length ∧
    (∃ (dq : ℤ) (bp : Point ℤ × Point ℤ),
      closest_pair [(⟨0, 0⟩ : Point ℤ), ⟨0, 1⟩, ⟨5, 5⟩] = some ((dq : WithTop ℤ), bp) ∧
      ((dq : WithTop ℤ)) = minDist2 [(⟨0, 0⟩ : Point ℤ), ⟨0, 1⟩, ⟨5, 5⟩] ∧
      dq = dist2 bp.1 bp.2 ∧ [bp.1, bp.2] <+~ [(⟨0, 0⟩ : Point ℤ), ⟨0, 1⟩, ⟨5, 5⟩] ∧
      (∀ bd bbp, brute_force [(⟨0, 0⟩ : Point ℤ), ⟨0, 1⟩, ⟨5, 5⟩] = some (bd, bbp) →
        bd = (dq : WithTop ℤ)) ∧
      ((∀ r ∈ [(⟨0, 0⟩ : Point ℤ), ⟨0, 1⟩, ⟨5, 5⟩], ∀ s ∈ [(⟨0, 0⟩ : Point ℤ), ⟨0, 1⟩, ⟨5, 5⟩],
          r = s) → dq = 0)) :=
  ⟨by decide, C1_closest_pair_equals_min_distance _ (by decide)⟩

/-- **C3 (amended).** What every recursive subproblem actually guarantees:
it returns a finite value that is the squared distance of its returned
pair, and that pair consists of two distinct positions of its `px` or of
its `py` list.  (As stated, C3 is false: when a duplicated coordinate
value straddles an ancestor's split, `py` contains copies that `px` does
not, and the returned distance need not be achievable within `px` — see
`C3_counterexample`.) -/
theorem C3_subproblem_result_sound (fuel : Nat) (px py : List (Point α))
    (hfuel : px.length ≤ fuel) (h2 : 2 ≤ px.length) :
    ∃ (dq : α) (bp : Point α × Point α),
      closestPairRec fuel px py = some ((dq : WithTop α), bp) ∧
      dq = dist2 bp.1 bp.2 ∧
      ([bp.1, bp.2] <+~ px ∨ [bp.1, bp.2] <+~ py) :=
  closestPairRec_some fuel px py hfuel h2

/-- Witness for the amended C3 at a concrete input. -/
theorem C3_witness :
    ([(⟨0, 0⟩ : Point ℤ), ⟨1, 0⟩] : List (Point ℤ)).length ≤ 2 ∧
    2 ≤ ([(⟨0, 0⟩ : Point ℤ), ⟨1, 0⟩] : List (Point ℤ)).length ∧
    (∃ (dq : ℤ) (bp : Point ℤ × Point ℤ),
      closestPairRec 2 [(⟨0, 0⟩ : Point ℤ), ⟨1, 0⟩] [⟨0, 0⟩, ⟨1, 0⟩]
        = some ((dq : WithTop ℤ), bp) ∧
      dq = dist2 bp.1 bp.2 ∧
      ([bp.1, bp.2] <+~ [(⟨0, 0⟩ : Point ℤ), ⟨1, 0⟩] ∨
        [bp.1, bp.2] <+~ [(⟨0, 0⟩ : Point ℤ), ⟨1, 0⟩])) :=
  ⟨by decide, by decide, C3_subproblem_result_sound 2 _ _ (by decide) (by decide)⟩

/-- **C3 counterexample.** In the top-level run on `phantomPts`, the left
recursive subproblem is exactly `(Qx, Qy)` below (the first two conjuncts
show it is produced by the split and the value-membership partition; the
subcall receives fuel 7).  It returns distance 0 with the pair
`((4,10),(4,10))`, yet no two distinct positions of its own subset `Qx`
are at distance 0 — the minimum within `Qx` is 1. -/
theorem C3_counterexample :
    (sortX phantomPts).take ((sortX phantomPts).length / 2)
        = [⟨0, 0⟩, ⟨3, 0⟩, ⟨4, 0⟩, ⟨4, 10⟩] ∧
    ((sortY phantomPts).filter fun p =>
        decide (p ∈ (sortX phantomPts).take ((sortX phantomPts).length / 2)))
        = [⟨0, 0⟩, ⟨3, 0⟩, ⟨4, 0⟩, ⟨4, 10⟩, ⟨4, 10⟩] ∧
    closestPairRec 7 [(⟨0, 0⟩ : Point ℤ), ⟨3, 0⟩, ⟨4, 0⟩, ⟨4, 10⟩]
        [⟨0, 0⟩, ⟨3, 0⟩, ⟨4, 0⟩, ⟨4, 10⟩, ⟨4, 10⟩]
      = some (((0 : ℤ) : WithTop ℤ), (⟨4, 10⟩, ⟨4, 10⟩)) ∧
    (∀ i j : Fin ([(⟨0, 0⟩ : Point ℤ), ⟨3, 0⟩, ⟨4, 0⟩, ⟨4, 10⟩].length), i ≠ j →
      dist2 ([(⟨0, 0⟩ : Point ℤ), ⟨3, 0⟩, ⟨4, 0⟩, ⟨4, 10⟩].get i)
        ([(⟨0, 0⟩ : Point ℤ), ⟨3, 0⟩, ⟨4, 0⟩, ⟨4, 10⟩].get j) ≠ 0) ∧
    minDist2 [(⟨0, 0⟩ : Point ℤ), ⟨3, 0⟩, ⟨4, 0⟩, ⟨4, 10⟩] = ((1 : ℤ) : WithTop ℤ) := by
  decide

/-- **C4.** `closest_pair` fails (raises, modelled as `none`) exactly when
the input has fewer than 2 points, and every input with at least 2 points
yields a result. -/
theorem C4_invalid_input (pts : List (Point α)) :
    (pts.length < 2 → closest_pair pts = none) ∧
    closest_pair ([] : List (Point α)) = none ∧
    (∀ p : Point α, closest_pair [p] = none) ∧
    (2 ≤ pts.length → ∃ r, closest_pair pts = some r) := by
  refine ⟨?_, ?_, ?_, ?_⟩
  · intro h
    unfold closest_pair
    rw [if_pos h]
  · unfold closest_pair
    rw [if_pos (by simp)]
  · intro p
    unfold closest_pair
    rw [if_pos (by simp)]
  · intro h2
    obtain ⟨dq, bp, hres, _⟩ := closest_pair_spec h2
    exact ⟨_, hres⟩

/-- Witness for C4 at concrete inputs. -/
theorem C4_witness :
    closest_pair ([] : List (Point ℤ)) = none ∧
    closest_pair [(⟨1, 2⟩ : Point ℤ)] = none ∧
    (2 ≤ ([(⟨0, 0⟩ : Point ℤ), ⟨1, 1⟩] : List (Point ℤ)).length ∧
      ∃ r, closest_pair [(⟨0, 0⟩ : Point ℤ), ⟨1, 1⟩] = some r) :=
  ⟨(C4_invalid_input ([] : List (Point ℤ))).2.1,
    (C4_invalid_input ([] : List (Point ℤ))).2.2.1 ⟨1, 2⟩,
    by decide,
    (C4_invalid_input [(⟨0, 0⟩ : Point ℤ), ⟨1, 1⟩]).2.2.2 (by decide)⟩

/-- **C7 (amended).** Given exactly 1 point, `brute_force` raises no error
at all: it returns distance infinity together with the degenerate pair
`(p, p)`.  (The claim that it treats one point as an error is refuted by
`C7_counterexample`.)  The recursion never invokes it on fewer than 2
points. -/
theorem C7_singleton_returns_inf (p : Point α) :
    brute_force [p] = some (⊤, (p, p)) := rfl

/-- Witness for the amended C7 at a concrete input. -/
theorem C7_witness :
    brute_force [(⟨5, 5⟩ : Point ℤ)] = some (⊤, (⟨5, 5⟩, ⟨5, 5⟩)) :=
  C7_singleton_returns_inf ⟨5, 5⟩

/-- **C7 counterexample.** `brute_force` on a single point does not fail:
it returns a distance value (infinity) and a pair. -/
theorem C7_counterexample :
    brute_force [(⟨0, 0⟩ : Point ℤ)] = some (⊤, (⟨0, 0⟩, ⟨0, 0⟩)) ∧
    brute_force [(⟨0, 0⟩ : Point ℤ)] ≠ none := by
  decide

/-- **C2 (amended).** Lines 82–84 partition `Py` by coordinate-value
membership in the left half (`p in set(Qx)`), not by structural
assignment.  Both parts are order-preserving sub-sequences of `Py` (and
stay y-sorted), and whenever no coordinate value occurs in both halves —
in particular whenever all coordinate pairs are distinct — each part is
exactly the relative-order-preserving restriction of `Py` to its half's
multiset.  When a duplicated value straddles the split this fails: all
copies go to `Ly` and `Ry` omits them (see `C2_counterexample`). -/
theorem C2_partition_value_membership (px py : List (Point α)) (mid : Nat)
    (hperm : List.Perm py px)
    (hdisj : ∀ v ∈ px.take mid, v ∉ px.drop mid) :
    List.Perm (py.filter fun p => decide (p ∈ px.take mid)) (px.take mid) ∧
    List.Perm (py.filter fun p => decide (p ∉ px.take mid)) (px.drop mid) ∧
    (py.filter fun p => decide (p ∈ px.take mid)) <+ py ∧
    (py.filter fun p => decide (p ∉ px.take mid)) <+ py ∧
    (List.Sorted leY py →
      List.Sorted leY (py.filter fun p => decide (p ∈ px.take mid)) ∧
      List.Sorted leY (py.filter fun p => decide (p ∉ px.take mid))) := by
  obtain ⟨h1, h2⟩ := clean_partition mid hperm hdisj
  exact ⟨h1, h2, List.filter_sublist py, List.filter_sublist py,
    fun hs => ⟨hs.filter _, hs.filter _⟩⟩

/-- Witness for the amended C2 at a concrete input. -/
theorem C2_witness :
    List.Perm ([(⟨0, 0⟩ : Point ℤ), ⟨1, 0⟩, ⟨2, 0⟩, ⟨3, 0⟩] : List (Point ℤ))
      [(⟨0, 0⟩ : Point ℤ), ⟨1, 0⟩, ⟨2, 0⟩, ⟨3, 0⟩] ∧
    (∀ v ∈ ([(⟨0, 0⟩ : Point ℤ), ⟨1, 0⟩, ⟨2, 0⟩, ⟨3, 0⟩] : List (Point ℤ)).take 2,
      v ∉ ([(⟨0, 0⟩ : Point ℤ), ⟨1, 0⟩, ⟨2, 0⟩, ⟨3, 0⟩] : List (Point ℤ)).drop 2) ∧
    List.Perm
      (([(⟨0, 0⟩ : Point ℤ), ⟨1, 0⟩, ⟨2, 0⟩, ⟨3, 0⟩] : List (Point ℤ)).filter fun p =>
        decide (p ∈ ([(⟨0, 0⟩ : Point ℤ), ⟨1, 0⟩, ⟨2, 0⟩, ⟨3, 0⟩] : List (Point ℤ)).take 2))
      (([(⟨0, 0⟩ : Point ℤ), ⟨1, 0⟩, ⟨2, 0⟩, ⟨3, 0⟩] : List (Point ℤ)).take 2) :=
  ⟨by decide, by decide,
    (C2_partition_value_membership [(⟨0, 0⟩ : Point ℤ), ⟨1, 0⟩, ⟨2, 0⟩, ⟨3, 0⟩]
      [(⟨0, 0⟩ : Point ℤ), ⟨1, 0⟩, ⟨2, 0⟩, ⟨3, 0⟩] 2 (by decide) (by decide)).1⟩

/-- **C2 counterexample.** On `dupSplitPts` (4 points, recursion reached:
`3 < |Px|`), the left half `Lx` has 2 points but the computed `Ly` has 3
(both copies of the duplicated `(1,0)` land in `Ly`, because membership is
decided by coordinate value in `set(Qx)`), so `Ly` is not a permutation of
`Lx`'s multiset, and `Ry` has only 1 point. -/
theorem C2_counterexample :
    3 < (sortX dupSplitPts).length ∧
    ((sortX dupSplitPts).take ((sortX dupSplitPts).length / 2)).length = 2 ∧
    ((sortY dupSplitPts).filter fun p =>
        decide (p ∈ (sortX dupSplitPts).take ((sortX dupSplitPts).length / 2))).length = 3 ∧
    ¬ List.Perm
      ((sortY dupSplitPts).filter fun p =>
        decide (p ∈ (sortX dupSplitPts).take ((sortX dupSplitPts).length / 2)))
      ((sortX dupSplitPts).take ((sortX dupSplitPts).length / 2)) ∧
    ((sortY dupSplitPts).filter fun p =>
        decide (p ∉ (sortX dupSplitPts).take ((sortX dupSplitPts).length / 2))).length = 1 := by
  decide

set_option maxRecDepth 8000 in
/-- **C9 (amended).** On the spec's 10-point example set the minimum
distance is 1 (squared distance 1), attained by `(3,4)` and `(4,4)` — not
`√2`: the pair `(0,0)`,`(1,1)` is at distance `√2 ≈ 1.414214 > 1` and is
not minimal. -/
theorem C9_example_min_distance_one :
    closest_pair examplePts = some (((1 : ℤ) : WithTop ℤ), (⟨3, 4⟩, ⟨4, 4⟩)) ∧
    minDist2 examplePts = ((1 : ℤ) : WithTop ℤ) ∧
    distReal ⟨3, 4⟩ ⟨4, 4⟩ = 1 ∧
    distReal ⟨0, 0⟩ ⟨1, 1⟩ = Real.sqrt 2 := by
  refine ⟨examplePts_eval, by decide, ?_, ?_⟩
  · have h : dist2 (⟨3, 4⟩ : Point ℤ) ⟨4, 4⟩ = 1 := by decide
    unfold distReal
    rw [h]
    norm_num
  · have h : dist2 (⟨0, 0⟩ : Point ℤ) ⟨1, 1⟩ = 2 := by decide
    unfold distReal
    rw [h]
    norm_num

/-- **C9 counterexample.** The returned minimum distance on the example
set is 1, not `√2` (squared: 1, not 2), and the returned pair is
`((3,4),(4,4))`, not `((0,0),(1,1))`. -/
theorem C9_counterexample :
    closest_pair examplePts = some (((1 : ℤ) : WithTop ℤ), (⟨3, 4⟩, ⟨4, 4⟩)) ∧
    dist2 (⟨3, 4⟩ : Point ℤ) ⟨4, 4⟩ = 1 ∧
    dist2 (⟨0, 0⟩ : Point ℤ) ⟨1, 1⟩ = 2 ∧
    (∀ bp, closest_pair examplePts ≠ some (((2 : ℤ) : WithTop ℤ), bp)) := by
  refine ⟨examplePts_eval, by decide, by decide, ?_⟩
  intro bp h
  rw [examplePts_eval] at h
  have h1 : ((1 : ℤ) : WithTop ℤ) = ((2 : ℤ) : WithTop ℤ) := by
    have := congrArg Prod.fst (Option.some.inj h)
    simpa using this
  exact absurd h1 (by decide)

/-- **C5.** At every recursive node with more than 3 points (subcall
results in hand): the node's result is exactly the scan of the strip; the
strip holds exactly the members of the full y-ordered `Py` (with
multiplicity) whose x-offset from `midX` squared is below the current
best, in `Py`'s order (hence y-ordered); every compared pair sits at strip
positions `i < j ≤ i+7` and every such position pair is compared; and the
scan only ever replaces the best on a strictly smaller distance (its
result is `best` itself unless some compared pair is strictly closer). -/
theorem C5_strip_and_scan (fuel : Nat) (px py : List (Point α)) (qlast : Point α)
    (dl dr : WithTop α) (pl pr : Point α × Point α)
    (best : WithTop α × (Point α × Point α)) (strip : List (Point α))
    (h3 : ¬ px.length ≤ 3)
    (hlast : (px.take (px.length / 2)).getLast? = some qlast)
    (hl : closestPairRec fuel (px.take (px.length / 2))
        (py.filter fun p => decide (p ∈ px.take (px.length / 2))) = some (dl, pl))
    (hr : closestPairRec fuel (px.drop (px.length / 2))
        (py.filter fun p => decide (p ∉ px.take (px.length / 2))) = some (dr, pr))
    (hbest : best = if dl ≤ dr then (dl, pl) else (dr, pr))
    (hstrip : strip = py.filter fun p =>
        decide ((((p.x - qlast.x) ^ 2 : α) : WithTop α) < best.1)) :
    closestPairRec (fuel + 1) px py = some ((stripPairs strip).foldl upd best) ∧
    (∀ e : Point α, List.count e strip =
      if (((e.x - qlast.x) ^ 2 : α) : WithTop α) < best.1 then List.count e py else 0) ∧
    (List.Sorted leY py → List.Sorted leY strip) ∧
    (∀ pq : Point α × Point α, pq ∈ stripPairs strip →
      ∃ i j : Fin strip.length, i < j ∧ (j : ℕ) ≤ (i : ℕ) + 7 ∧
        strip.get i = pq.1 ∧ strip.get j = pq.2) ∧
    (∀ i j : Fin strip.length, i < j → (j : ℕ) ≤ (i : ℕ) + 7 →
      (strip.get i, strip.get j) ∈ stripPairs strip) ∧
    ((stripPairs strip).foldl upd best).1 ≤ best.1 ∧
    (∀ pq ∈ stripPairs strip,
      ((stripPairs strip).foldl upd best).1 ≤ ((dist2 pq.1 pq.2 : α) : WithTop α)) ∧
    ((stripPairs strip).foldl upd best = best ∨
      ∃ pq ∈ stripPairs strip,
        (stripPairs strip).foldl upd best = (((dist2 pq.1 pq.2 : α) : WithTop α), pq) ∧
        ((dist2 pq.1 pq.2 : α) : WithTop α) < best.1) := by
  subst hbest
  subst hstrip
  refine ⟨closestPairRec_node h3 hlast hl hr, ?_, fun hs => hs.filter _,
    fun pq hpq => stripPairs_get hpq, fun i j hij h7 => mem_stripPairs_of_get hij h7,
    foldl_upd_fst_le_init _ _, fun pq hpq => foldl_upd_fst_le_mem pq _ hpq,
    foldl_upd_sound_strict _ rfl⟩
  intro e
  rw [count_filter_eq]
  by_cases h : (((e.x - qlast.x) ^ 2 : α) : WithTop α) <
      ((if dl ≤ dr then (dl, pl) else (dr, pr)).1)
  · rw [if_pos (decide_eq_true h), if_pos h]
  · rw [if_neg (fun hd => h (of_decide_eq_true hd)), if_neg h]

/-- Witness for C5: the node on 4 collinear points; only the midpoint
survives the strip filter and the node's result is the scan from the left
best. -/
theorem C5_witness :
    closestPairRec 4 [(⟨0, 0⟩ : Point ℤ), ⟨1, 0⟩, ⟨5, 0⟩, ⟨6, 0⟩] [⟨0, 0⟩, ⟨1, 0⟩, ⟨5, 0⟩, ⟨6, 0⟩]
      = some ((stripPairs [(⟨1, 0⟩ : Point ℤ)]).foldl upd
          (((1 : ℤ) : WithTop ℤ), (⟨0, 0⟩, ⟨1, 0⟩))) :=
  (C5_strip_and_scan 3 [(⟨0, 0⟩ : Point ℤ), ⟨1, 0⟩, ⟨5, 0⟩, ⟨6, 0⟩]
    [⟨0, 0⟩, ⟨1, 0⟩, ⟨5, 0⟩, ⟨6, 0⟩] ⟨1, 0⟩
    (((1 : ℤ) : WithTop ℤ)) (((1 : ℤ) : WithTop ℤ)) (⟨0, 0⟩, ⟨1, 0⟩) (⟨5, 0⟩, ⟨6, 0⟩)
    (((1 : ℤ) : WithTop ℤ), (⟨0, 0⟩, ⟨1, 0⟩)) [(⟨1, 0⟩ : Point ℤ)]
    (by decide) (by decide) (by decide) (by decide) (by decide) (by decide)).1

/-- **C6.** `brute_force` on 2 or 3 points returns the minimum pairwise
distance with the first pair in index order attaining it (strict `<`, so
earlier candidates win ties); the recursion delegates to it exactly when
`|Px| ≤ 3`; and the combine step takes `d = min dl dr`, preferring the
left pair on equality. -/
theorem C6_brute_force_policy :
    (∀ a b : Point α, brute_force [a, b] = some (((dist2 a b : α) : WithTop α), (a, b))) ∧
    (∀ a b c : Point α, ∃ (m : α) (pr : Point α × Point α),
      brute_force [a, b, c] = some ((m : WithTop α), pr) ∧
      m = min (dist2 a b) (min (dist2 a c) (dist2 b c)) ∧
      ((pr = (a, b) ∧ m = dist2 a b) ∨
       (pr = (a, c) ∧ m = dist2 a c ∧ m < dist2 a b) ∨
       (pr = (b, c) ∧ m = dist2 b c ∧ m < dist2 a b ∧ m < dist2 a c))) ∧
    (∀ (fuel : Nat) (px py : List (Point α)), px.length ≤ 3 →
      closestPairRec (fuel + 1) px py = brute_force px) ∧
    (∀ (dl dr : WithTop α) (pl pr : Point α × Point α),
      (if dl ≤ dr then (dl, pl) else (dr, pr)).1 = min dl dr ∧
      (dl ≤ dr → (if dl ≤ dr then (dl, pl) else (dr, pr)) = (dl, pl))) := by
  refine ⟨?_, ?_, ?_, ?_⟩
  · intro a b
    have h0 : brute_force [a, b] = some (upd (⊤, (a, a)) (a, b)) := rfl
    rw [h0]
    unfold upd
    rw [if_pos (WithTop.coe_lt_top _)]
  · intro a b c
    have h0 : brute_force [a, b, c]
        = some ([(a, b), (a, c), (b, c)].foldl upd (⊤, (a, a))) := rfl
    rw [h0, List.foldl_cons, List.foldl_cons, List.foldl_cons, List.foldl_nil]
    have s1 : upd (⊤, (a, a)) (a, b) = (((dist2 a b : α) : WithTop α), (a, b)) := by
      unfold upd
      rw [if_pos (WithTop.coe_lt_top _)]
    rw [s1]
    by_cases h1 : dist2 a c < dist2 a b
    · have s2 : upd (((dist2 a b : α) : WithTop α), (a, b)) (a, c)
          = (((dist2 a c : α) : WithTop α), (a, c)) := by
        unfold upd
        rw [if_pos (WithTop.coe_lt_coe.mpr h1)]
      rw [s2]
      by_cases h2 : dist2 b c < dist2 a c
      · have s3 : upd (((dist2 a c : α) : WithTop α), (a, c)) (b, c)
            = (((dist2 b c : α) : WithTop α), (b, c)) := by
          unfold upd
          rw [if_pos (WithTop.coe_lt_coe.mpr h2)]
        rw [s3]
        refine ⟨dist2 b c, (b, c), rfl, ?_, Or.inr (Or.inr ⟨rfl, rfl, by linarith, h2⟩)⟩
        rw [min_eq_right (le_of_lt h2), min_eq_right (by linarith)]
      · have s3 : upd (((dist2 a c : α) : WithTop α), (a, c)) (b, c)
            = (((dist2 a c : α) : WithTop α), (a, c)) := by
          unfold upd
          rw [if_neg (fun hh => h2 (WithTop.coe_lt_coe.mp hh))]
        rw [s3]
        push_neg at h2
        refine ⟨dist2 a c, (a, c), rfl, ?_, Or.inr (Or.inl ⟨rfl, rfl, h1⟩)⟩
        rw [min_eq_left h2, min_eq_right (le_of_lt h1)]
    · have s2 : upd (((dist2 a b : α) : WithTop α), (a, b)) (a, c)
          = (((dist2 a b : α) : WithTop α), (a, b)) := by
        unfold upd
        rw [if_neg (fun hh => h1 (WithTop.coe_lt_coe.mp hh))]
      rw [s2]
      push_neg at h1
      by_cases h2 : dist2 b c < dist2 a b
      · have s3 : upd (((dist2 a b : α) : WithTop α), (a, b)) (b, c)
            = (((dist2 b c : α) : WithTop α), (b, c)) := by
          unfold upd
          rw [if_pos (WithTop.coe_lt_coe.mpr h2)]
        rw [s3]
        refine ⟨dist2 b c, (b, c), rfl, ?_, Or.inr (Or.inr ⟨rfl, rfl, h2, by linarith⟩)⟩
        rw [min_comm (dist2 a c) (dist2 b c), ← min_assoc, min_eq_right (le_of_lt h2),
          min_eq_left (by linarith)]
      · have s3 : upd (((dist2 a b : α) : WithTop α), (a, b)) (b, c)
            = (((dist2 a b : α) : WithTop α), (a, b)) := by
          unfold upd
          rw [if_neg (fun hh => h2 (WithTop.coe_lt_coe.mp hh))]
        rw [s3]
        push_neg at h2
        refine ⟨dist2 a b, (a, b), rfl, ?_, Or.inl ⟨rfl, rfl⟩⟩
        rw [min_eq_left]
        exact le_min h1 h2
  · intro fuel px py h3
    exact closestPairRec_base h3
  · intro dl dr pl pr
    constructor
    · split
      · rename_i h
        rw [min_eq_left h]
      · rename_i h
        push_neg at h
        rw [min_eq_right (le_of_lt h)]
    · intro h
      rw [if_pos h]

/-- Witness for C6 at concrete inputs. -/
theorem C6_witness :
    brute_force [(⟨0, 0⟩ : Point ℤ), ⟨3, 4⟩]
      = some (((dist2 (⟨0, 0⟩ : Point ℤ) ⟨3, 4⟩ : ℤ) : WithTop ℤ), (⟨0, 0⟩, ⟨3, 4⟩)) ∧
    (([(⟨0, 0⟩ : Point ℤ), ⟨1, 1⟩, ⟨5, 5⟩] : List (Point ℤ)).length ≤ 3 ∧
      closestPairRec 4 [(⟨0, 0⟩ : Point ℤ), ⟨1, 1⟩, ⟨5, 5⟩] []
        = brute_force [(⟨0, 0⟩ : Point ℤ), ⟨1, 1⟩, ⟨5, 5⟩]) :=
  ⟨C6_brute_force_policy.1 ⟨0, 0⟩ ⟨3, 4⟩,
    by decide,
    C6_brute_force_policy.2.2.1 3 [(⟨0, 0⟩ : Point ℤ), ⟨1, 1⟩, ⟨5, 5⟩] [] (by decide)⟩

/-- **C8.** The split is always at the midpoint index of the current
subsequence, so both recursive halves are strictly shorter (and still of
size ≥ 2); the fuel-indexed recursion is independent of the fuel as soon
as it is at least the input length — i.e. the recursion terminates — and
every input of at least 2 points produces a result.  (The `O(n log n)`
running-time bound itself is not statable over this embedding, as the
claim itself notes.) -/
theorem C8_midpoint_split_and_termination (px py pts : List (Point α)) (f : Nat) :
    (4 ≤ px.length →
      (px.take (px.length / 2)).length < px.length ∧
      (px.drop (px.length / 2)).length < px.length ∧
      2 ≤ (px.take (px.length / 2)).length ∧
      2 ≤ (px.drop (px.length / 2)).length) ∧
    (px.length ≤ f → closestPairRec f px py = closestPairRec px.length px py) ∧
    (2 ≤ pts.length → ∃ r, closest_pair pts = some r) := by
  refine ⟨?_, ?_, ?_⟩
  · intro h4
    have h1 : (px.take (px.length / 2)).length = px.length / 2 := by
      rw [List.length_take]
      omega
    have h2 : (px.drop (px.length / 2)).length = px.length - px.length / 2 :=
      List.length_drop _ _
    omega
  · intro hf
    exact closestPairRec_fuel_agree f px.length px py hf (le_refl _)
  · intro h2
    obtain ⟨dq, bp, hres, _⟩ := closest_pair_spec h2
    exact ⟨_, hres⟩

/-- Witness for C8 at a concrete input. -/
theorem C8_witness :
    (4 ≤ ([(⟨0, 0⟩ : Point ℤ), ⟨1, 0⟩, ⟨5, 0⟩, ⟨6, 0⟩] : List (Point ℤ)).length ∧
      (([(⟨0, 0⟩ : Point ℤ), ⟨1, 0⟩, ⟨5, 0⟩, ⟨6, 0⟩] : List (Point ℤ)).take
          (([(⟨0, 0⟩ : Point ℤ), ⟨1, 0⟩, ⟨5, 0⟩, ⟨6, 0⟩] : List (Point ℤ)).length / 2)).length
        < ([(⟨0, 0⟩ : Point ℤ), ⟨1, 0⟩, ⟨5, 0⟩, ⟨6, 0⟩] : List (Point ℤ)).length) ∧
    (([(⟨0, 0⟩ : Point ℤ), ⟨1, 0⟩, ⟨5, 0⟩, ⟨6, 0⟩] : List (Point ℤ)).length ≤ 9 ∧
      closestPairRec 9 [(⟨0, 0⟩ : Point ℤ), ⟨1, 0⟩, ⟨5, 0⟩, ⟨6, 0⟩]
          [⟨0, 0⟩, ⟨1, 0⟩, ⟨5, 0⟩, ⟨6, 0⟩]
        = closestPairRec 4 [(⟨0, 0⟩ : Point ℤ), ⟨1, 0⟩, ⟨5, 0⟩, ⟨6, 0⟩]
          [⟨0, 0⟩, ⟨1, 0⟩, ⟨5, 0⟩, ⟨6, 0⟩]) ∧
    (2 ≤ ([(⟨0, 0⟩ : Point ℤ), ⟨1, 0⟩] : List (Point ℤ)).length ∧
      ∃ r, closest_pair [(⟨0, 0⟩ : Point ℤ), ⟨1, 0⟩] = some r) :=
  ⟨⟨by decide,
      ((C8_midpoint_split_and_termination [(⟨0, 0⟩ : Point ℤ), ⟨1, 0⟩, ⟨5, 0⟩, ⟨6, 0⟩]
        [] [] 0).1 (by decide)).1⟩,
    ⟨by decide,
      (C8_midpoint_split_and_termination [(⟨0, 0⟩ : Point ℤ), ⟨1, 0⟩, ⟨5, 0⟩, ⟨6, 0⟩]
        [⟨0, 0⟩, ⟨1, 0⟩, ⟨5, 0⟩, ⟨6, 0⟩] [] 9).2.1 (by decide)⟩,
    ⟨by decide,
      (C8_midpoint_split_and_termination [] [] [(⟨0, 0⟩ : Point ℤ), ⟨1, 0⟩] 0).2.2
        (by decide)⟩⟩

/-- **C10.** Every internal `brute_force` call made by the recursion on a
top-level input of ≥ 2 points gets 2 or 3 points (both halves of a list of
length ≥ 4 have length ≥ 2), so the initial `points[0]` access never
fails and the distance returned is finite; consequently the recursion
always returns `some` finite value on sufficient fuel. -/
theorem C10_internal_brute_force_safe (px py : List (Point α)) (fuel : Nat) :
    (2 ≤ px.length → px.length ≤ 3 →
      ∃ (dq : α) (bp : Point α × Point α), brute_force px = some ((dq : WithTop α), bp) ∧
        dq = dist2 bp.1 bp.2) ∧
    (4 ≤ px.length →
      2 ≤ (px.take (px.length / 2)).length ∧ 2 ≤ (px.drop (px.length / 2)).length) ∧
    (px.length ≤ fuel → 2 ≤ px.length →
      ∃ (dq : α) (bp : Point α × Point α),
        closestPairRec fuel px py = some ((dq : WithTop α), bp) ∧ dq = dist2 bp.1 bp.2) := by
  refine ⟨?_, ?_, ?_⟩
  · intro h2 _
    obtain ⟨dq, bp, hbf, hd, _⟩ := brute_force_spec h2
    exact ⟨dq, bp, hbf, hd⟩
  · intro h4
    have h1 : (px.take (px.length / 2)).length = px.length / 2 := by
      rw [List.length_take]
      omega
    have h2 : (px.drop (px.length / 2)).length = px.length - px.length / 2 :=
      List.length_drop _ _
    omega
  · intro hfuel h2
    obtain ⟨dq, bp, hrec, hd, _⟩ := closestPairRec_some fuel px py hfuel h2
    exact ⟨dq, bp, hrec, hd⟩

/-- Witness for C10 at concrete inputs. -/
theorem C10_witness :
    (2 ≤ ([(⟨0, 0⟩ : Point ℤ), ⟨3, 4⟩] : List (Point ℤ)).length ∧
      ([(⟨0, 0⟩ : Point ℤ), ⟨3, 4⟩] : List (Point ℤ)).length ≤ 3 ∧
      ∃ (dq : ℤ) (bp : Point ℤ × Point ℤ),
        brute_force [(⟨0, 0⟩ : Point ℤ), ⟨3, 4⟩] = some ((dq : WithTop ℤ), bp) ∧
        dq = dist2 bp.1 bp.2) ∧
    (([(⟨0, 0⟩ : Point ℤ), ⟨1, 0⟩, ⟨5, 0⟩, ⟨6, 0⟩] : List (Point ℤ)).length ≤ 4 ∧
      2 ≤ ([(⟨0, 0⟩ : Point ℤ), ⟨1, 0⟩, ⟨5, 0⟩, ⟨6, 0⟩] : List (Point ℤ)).length ∧
      ∃ (dq : ℤ) (bp : Point ℤ × Point ℤ),
        closestPairRec 4 [(⟨0, 0⟩ : Point ℤ), ⟨1, 0⟩, ⟨5, 0⟩, ⟨6, 0⟩]
            [⟨0, 0⟩, ⟨1, 0⟩, ⟨5, 0⟩, ⟨6, 0⟩]
          = some ((dq : WithTop ℤ), bp) ∧ dq = dist2 bp.1 bp.2) :=
  ⟨⟨by decide, by decide,
      (C10_internal_brute_force_safe [(⟨0, 0⟩ : Point ℤ), ⟨3, 4⟩] [] 0).1
        (by decide) (by decide)⟩,
    ⟨by decide, by decide,
      (C10_internal_brute_force_safe [(⟨0, 0⟩ : Point ℤ), ⟨1, 0⟩, ⟨5, 0⟩, ⟨6, 0⟩]
        [⟨0, 0⟩, ⟨1, 0⟩, ⟨5, 0⟩, ⟨6, 0⟩] 4).2.2 (by decide) (by decide)⟩⟩

end ClosestPair
